import Mathlib

/-!
Shallow embedding of the bookmark manager's core logic (app.py): the format
converter between the internal ordered mapping form and the external
Homepage nested-list form (load_bookmarks / save_bookmarks), the config
validators (validate_bookmarks_format and friends), and the reorder
endpoint's document mutation (reorder_bookmark).

Python values parsed from YAML are modelled as a tree `Val` of mappings
(association lists of string keys, insertion-ordered, as Python dicts are),
sequences and scalars.  A Python function that can raise is modelled as
returning `Except String _`, the error being the exception's name; a
function that returns an error message to its caller keeps that message in
its ordinary return value.
-/

namespace BookmarkTool

/-- A parsed YAML value: the tree of mappings, sequences and scalars that
`yaml.safe_load` produces.  Mapping keys are modelled as strings (the only
keys the program ever uses); mapping entries keep insertion order, as
Python dicts do. -/
inductive Val where
  | null
  | bool (b : Bool)
  | int (n : Int)
  | str (s : String)
  | list (xs : List Val)
  | map (m : List (String × Val))

mutual

/-- Structural equality of values, modelling Python `==` where both sides
were produced by the same code path (used only reflexively below). -/
def Val.beq : Val → Val → Bool
  | .null, .null => true
  | .bool a, .bool b => a == b
  | .int a, .int b => a == b
  | .str a, .str b => a == b
  | .list xs, .list ys => Val.beqList xs ys
  | .map a, .map b => Val.beqMap a b
  | _, _ => false

/-- Elementwise `Val.beq` on sequences. -/
def Val.beqList : List Val → List Val → Bool
  | [], [] => true
  | x :: xs, y :: ys => Val.beq x y && Val.beqList xs ys
  | _, _ => false

/-- Pairwise `Val.beq` on mapping entry lists (order-sensitive). -/
def Val.beqMap : List (String × Val) → List (String × Val) → Bool
  | [], [] => true
  | (k, v) :: xs, (l, w) :: ys => k == l && Val.beq v w && Val.beqMap xs ys
  | _, _ => false

end

/-- Python `x is None`. -/
def Val.isNull : Val → Bool
  | .null => true
  | _ => false

/-- The in-memory "ordered form": category name → (bookmark name → stored
properties value).  `load_bookmarks` returns this shape (an OrderedDict of
OrderedDicts); the stored properties value is a `Val` (a dict in every path
the app itself builds). -/
abbrev Doc := List (String × List (String × Val))

/-- Python `d[k] = v` on a dict / OrderedDict: replace the value in place
when the key is present (position kept), append otherwise (a real dict's
keys are distinct, so replacing the first occurrence is replacing the
occurrence). -/
def setKey {α : Type} : List (String × α) → String → α → List (String × α)
  | [], k, v => [(k, v)]
  | p :: t, k, v => if p.1 == k then (k, v) :: t else p :: setKey t k v

/-- Python `d[k]` / `d.get(k)` on a dict: the value stored at the key. -/
def getKey {α : Type} : List (String × α) → String → Option α
  | [], _ => none
  | p :: t, k => if p.1 == k then some p.2 else getKey t k

/-- Python `del d[k]` on a dict (the key is unique in a real dict). -/
def delKey {α : Type} : List (String × α) → String → List (String × α)
  | [], _ => []
  | p :: t, k => if p.1 == k then delKey t k else p :: delKey t k

/-- Python `k in d` on a dict. -/
def hasKey {α : Type} : List (String × α) → String → Bool
  | [], _ => false
  | p :: t, k => p.1 == k || hasKey t k

/-- Python truthiness of a parsed value (`data or {}`, `if bookmarks_dict:`,
`if not parsed_content:`). -/
def Val.truthy : Val → Bool
  | .null => false
  | .bool b => b
  | .int n => n != 0
  | .str s => !s.isEmpty
  | .list xs => !xs.isEmpty
  | .map m => !m.isEmpty

/-- Whether a value is a mapping (`isinstance(x, dict)`). -/
def Val.isMap : Val → Bool
  | .map _ => true
  | _ => false

/-- Whether a value is a sequence (`isinstance(x, list)`). -/
def Val.isList : Val → Bool
  | .list _ => true
  | _ => false

/-- The entries of a mapping value (`[]` for non-mappings). -/
def Val.getMap : Val → List (String × Val)
  | .map m => m
  | _ => []

/-- The elements of a sequence value (`[]` for non-sequences). -/
def Val.getList : Val → List Val
  | .list xs => xs
  | _ => []

/-- Whether a value is a non-empty sequence (`isinstance(x, list) and
len(x) > 0`). -/
def Val.isNonemptyList : Val → Bool
  | .list (_ :: _) => true
  | _ => false

/-- Property extraction from the first properties mapping in
`load_bookmarks`'s list branch: `href` read with default `''`, `icon` and
`abbr` read with default `None`, then every `None`-valued entry removed
(the dict comprehension `{k: v for k, v in ... if v is not None}`). -/
def extractProps (m : List (String × Val)) : Val :=
  Val.map
    (([("href", (getKey m "href").getD (Val.str "")),
       ("icon", (getKey m "icon").getD Val.null),
       ("abbr", (getKey m "abbr").getD Val.null)]).filter
      (fun kv => !kv.2.isNull))

/-- Python dict update `conv[c][b] = v` inside the list branch: the inner
mapping of category `c` gains/updates key `b` (category `c` is always
present there, having just been assigned). -/
def setInner (conv : Doc) (c b : String) (v : Val) : Doc :=
  setKey conv c (setKey ((getKey conv c).getD []) b v)

/-- Loop of `load_bookmarks`'s list branch over one bookmark entry's
(name, value) pairs: a value that is not a non-empty sequence is skipped;
otherwise the first element must be a mapping — `properties_list[0]` is
read with `.get`, which raises AttributeError on a non-mapping. -/
def ordBPairs (c : String) (conv : Doc) : List (String × Val) → Except String Doc
  | [] => .ok conv
  | (bname, plist) :: rest =>
    match plist with
    | .list (p0 :: _) =>
      match p0 with
      | .map m => ordBPairs c (setInner conv c bname (extractProps m)) rest
      | _ => .error "AttributeError"
    | _ => ordBPairs c conv rest

/-- Loop of the list branch over one category's bookmark items: a non-mapping
item is skipped. -/
def ordBItems (c : String) (conv : Doc) : List Val → Except String Doc
  | [] => .ok conv
  | bitem :: rest =>
    match bitem with
    | .map bpairs =>
      match ordBPairs c conv bpairs with
      | .ok conv2 => ordBItems c conv2 rest
      | .error e => .error e
    | _ => ordBItems c conv rest

/-- Loop of the list branch over one category item's (name, value) pairs:
the category is registered empty first (`converted[category_name] =
OrderedDict()`), then filled only when its value is a sequence. -/
def ordCPairs (conv : Doc) : List (String × Val) → Except String Doc
  | [] => .ok conv
  | (cname, blist) :: rest =>
    match blist with
    | .list bitems =>
      match ordBItems cname (setKey conv cname []) bitems with
      | .ok conv2 => ordCPairs conv2 rest
      | .error e => .error e
    | _ => ordCPairs (setKey conv cname []) rest

/-- Loop of the list branch over the category items: a non-mapping item is
skipped. -/
def ordCats (conv : Doc) : List Val → Except String Doc
  | [] => .ok conv
  | citem :: rest =>
    match citem with
    | .map cpairs =>
      match ordCPairs conv cpairs with
      | .ok conv2 => ordCats conv2 rest
      | .error e => .error e
    | _ => ordCats conv rest

/-- One element of the iterable consumed by Python `OrderedDict(x)` /
`dict.update`: the element must itself be an iterable of exactly two items.
A two-element sequence gives a (key, value) pair; a two-character string
gives its two characters (`OrderedDict(['ab'])` is `{'a': 'b'}`); a
two-entry mapping gives its two keys (iterating a dict yields keys); an
iterable of another length raises ValueError; a non-iterable element (null,
boolean, number) raises TypeError.  Keys are strings in this embedding: a
two-element sequence whose first item is a sequence or a mapping raises
TypeError in Python too (unhashable), while one whose first item is null,
a boolean or a number is hashable in Python but has no counterpart in this
string-keyed document model and is likewise mapped to TypeError (the one
modelling boundary here). -/
def pyPair : Val → Except String (String × Val)
  | .list [k, v] =>
    match k with
    | .str ks => .ok (ks, v)
    | _ => .error "TypeError"
  | .list _ => .error "ValueError"
  | .str se =>
    match se.data with
    | [c1, c2] => .ok (String.mk [c1], Val.str (String.mk [c2]))
    | _ => .error "ValueError"
  | .map me =>
    match me with
    | [(k1, _), (k2, _)] => .ok (k1, Val.str k2)
    | _ => .error "ValueError"
  | _ => .error "TypeError"

/-- The left-to-right assignment loop of `OrderedDict(iterable)`: an
existing key keeps its position, the later value wins. -/
def ordPairsOf (acc : List (String × Val)) : List Val →
    Except String (List (String × Val))
  | [] => .ok acc
  | e :: rest =>
    match pyPair e with
    | .ok (k, v) => ordPairsOf (setKey acc k v) rest
    | .error err => .error err

/-- Python `OrderedDict(x)`: a mapping is copied as-is; any other value is
consumed as an iterable of key-value pairs (`pyPair` element by element) —
a sequence iterates over its elements, a string over its characters, so
`OrderedDict('')` is empty and a non-empty string fails on its first
one-character element (ValueError); a non-iterable argument (null, boolean,
number) raises TypeError. -/
def pyOrderedDict : Val → Except String (List (String × Val))
  | .map m => .ok m
  | .list xs => ordPairsOf [] xs
  | .str s => if s.isEmpty then .ok [] else .error "ValueError"
  | _ => .error "TypeError"

/-- Loop of `load_bookmarks`'s mapping branch: `converted[category_name] =
OrderedDict(bookmarks_dict)` for each (name, value) pair, with no field
defaulting. -/
def ordMapPairs (conv : Doc) : List (String × Val) → Except String Doc
  | [] => .ok conv
  | p :: rest =>
    match pyOrderedDict p.2 with
    | .ok inner => ordMapPairs (setKey conv p.1 inner) rest
    | .error e => .error e

/-- toOrdered: the conversion performed by `load_bookmarks` on the parsed
YAML value (`data = yaml.safe_load(file) or {}` and the three
`isinstance`-dispatched branches).  An `.error` result models a raised
exception; `.ok` is the returned ordered form. -/
def toOrdered (data0 : Val) : Except String Doc :=
  match (if data0.truthy then data0 else Val.map []) with
  | .list xs => ordCats [] xs
  | .map pairs => ordMapPairs [] pairs
  | _ => .ok []

/-- One bookmark's entry in `save_bookmarks`'s output:
`{bookmark_name: [properties]}`, the stored properties value unchanged. -/
def extBookmark (b : String × Val) : Val :=
  Val.map [(b.1, Val.list [b.2])]

/-- toExternal: `save_bookmarks`'s conversion of the ordered form to the
Homepage nested-list format, written as the source's two append loops; a
category whose bookmark mapping is empty (falsy) is not added. -/
def toExternal (bookmarks : Doc) : Val :=
  Val.list
    (bookmarks.foldl
      (fun acc c =>
        if c.2.isEmpty then acc
        else
          acc ++
            [Val.map
              [(c.1,
                Val.list (c.2.foldl (fun bacc b => bacc ++ [extBookmark b]) []))]])
      [])

/-- Python `s.startswith(pre)`, computed on the character sequence. -/
def strStartsWith (s pre : String) : Bool :=
  List.isPrefixOf pre.data s.data

/-- The accepted href schemes:
`startswith(('http://', 'https://', '/'))`. -/
def hrefValid (s : String) : Bool :=
  strStartsWith s "http://" || strStartsWith s "https://" || strStartsWith s "/"

/-- Property loop of `validate_bookmarks_format` for one bookmark, carrying
the `has_href` flag.  A returned error message is `.ok (some msg)`; a raised
exception (`prop['href'].startswith` on a non-string value) is `.error`;
passing is `.ok none` resp. the missing-href error at the loop's end. -/
def checkProps (bname : String) (hasHref : Bool) :
    List Val → Except String (Option String)
  | [] =>
    .ok
      (if hasHref then none
       else some ("Bookmark '" ++ bname ++ "' must have an 'href' property"))
  | p :: rest =>
    match p with
    | .map m =>
      match getKey m "href" with
      | none => checkProps bname hasHref rest
      | some (.str s) =>
        if hrefValid s then checkProps bname true rest
        else .ok (some ("href in '" ++ bname ++ "' should be a valid URL"))
      | some _ => .error "AttributeError"
    | _ =>
      .ok (some ("Properties for '" ++ bname ++ "' should be dictionaries"))

/-- Bookmark loop of `validate_bookmarks_format` within one category. -/
def checkBookmarks (cname : String) : List Val → Except String (Option String)
  | [] => .ok none
  | b :: rest =>
    match b with
    | .map [(bname, bdata)] =>
      match bdata with
      | .list props =>
        match checkProps bname false props with
        | .ok none => checkBookmarks cname rest
        | r => r
      | _ =>
        .ok
          (some ("Bookmark '" ++ bname ++ "' should contain a list of properties"))
    | .map _ =>
      .ok (some "Each bookmark should have exactly one key (bookmark name)")
    | _ =>
      .ok (some ("Each bookmark in '" ++ cname ++ "' should be a dictionary"))

/-- Category loop of `validate_bookmarks_format`. -/
def checkCategories : List Val → Except String (Option String)
  | [] => .ok none
  | c :: rest =>
    match c with
    | .map [(cname, cdata)] =>
      match cdata with
      | .list bitems =>
        match checkBookmarks cname bitems with
        | .ok none => checkCategories rest
        | r => r
      | _ =>
        .ok
          (some ("Category '" ++ cname ++ "' should contain a list of bookmarks"))
    | .map _ =>
      .ok (some "Each category should have exactly one key (category name)")
    | _ => .ok (some "Each bookmark category should be a dictionary")

/-- `validate_bookmarks_format`: `.ok none` is the source's `return None`
(valid), `.ok (some msg)` a returned error message, `.error` a raised
exception. -/
def validate_bookmarks_format (data : Val) : Except String (Option String) :=
  match data with
  | .list items => checkCategories items
  | _ => .ok (some "Bookmarks should be a list of categories")

/-- Service-property loop of `validate_services_format` (the href value type
is guarded with `isinstance`, so no exception is possible here). -/
def checkServiceProps (sname : String) : List Val → Option String
  | [] => none
  | p :: rest =>
    match p with
    | .map m =>
      match getKey m "href" with
      | some (.str _) => checkServiceProps sname rest
      | some _ =>
        some ("href in service '" ++ sname ++ "' should be a string")
      | none => checkServiceProps sname rest
    | _ =>
      some ("Properties for service '" ++ sname ++ "' should be dictionaries")

/-- Service loop of `validate_services_format` within one group. -/
def checkServices (gname : String) : List Val → Option String
  | [] => none
  | s :: rest =>
    match s with
    | .map [(sname, sdata)] =>
      match sdata with
      | .list props =>
        match checkServiceProps sname props with
        | none => checkServices gname rest
        | r => r
      | _ =>
        some ("Service '" ++ sname ++ "' should contain a list of properties")
    | .map _ => some "Each service should have exactly one key (service name)"
    | _ => some ("Each service in '" ++ gname ++ "' should be a dictionary")

/-- Group loop of `validate_services_format`. -/
def checkGroups : List Val → Option String
  | [] => none
  | g :: rest =>
    match g with
    | .map [(gname, gdata)] =>
      match gdata with
      | .list services =>
        match checkServices gname services with
        | none => checkGroups rest
        | r => r
      | _ => some ("Group '" ++ gname ++ "' should contain a list of services")
    | .map _ => some "Each group should have exactly one key (group name)"
    | _ => some "Each service group should be a dictionary"

/-- `validate_services_format` (never raises: all checks are guarded). -/
def validate_services_format (data : Val) : Option String :=
  match data with
  | .list groups => checkGroups groups
  | _ => some "Services should be a list of groups"

/-- Whether a mapping's key, when present, has a string value. -/
def keyIsStrIfPresent (m : List (String × Val)) (k : String) : Bool :=
  match getKey m k with
  | some (.str _) => true
  | some _ => false
  | none => true

/-- `validate_settings_format`. -/
def validate_settings_format (data : Val) : Option String :=
  match data with
  | .map m =>
    if !keyIsStrIfPresent m "title" then some "title should be a string"
    else if !keyIsStrIfPresent m "theme" then some "theme should be a string"
    else if !keyIsStrIfPresent m "color" then some "color should be a string"
    else if
        match getKey m "headerStyle" with
        | some v =>
          !(Val.beq v (.str "boxed") || Val.beq v (.str "underlined") ||
            Val.beq v (.str "clean"))
        | none => false then
      some "headerStyle should be 'boxed', 'underlined', or 'clean'"
    else if
        match getKey m "layout" with
        | some v => !v.isMap
        | none => false then
      some "layout should be a dictionary"
    else if
        match getKey m "providers" with
        | some v => !v.isMap
        | none => false then
      some "providers should be a dictionary"
    else none
  | _ => some "Settings should be a dictionary of key-value pairs"

/-- Widget loop of `validate_widgets_format`. -/
def checkWidgets : List Val → Option String
  | [] => none
  | w :: rest =>
    match w with
    | .map m =>
      match getKey m "type" with
      | none => some "Each widget must have a 'type' property"
      | some (.str t) =>
        match getKey m "options" with
        | some v =>
          if v.isMap then checkWidgets rest
          else some ("Widget options for '" ++ t ++ "' should be a dictionary")
        | none => checkWidgets rest
      | some _ => some "Widget 'type' should be a string"
    | _ => some "Each widget should be a dictionary"

/-- `validate_widgets_format`. -/
def validate_widgets_format (data : Val) : Option String :=
  match data with
  | .list widgets => checkWidgets widgets
  | _ => some "Widgets should be a list of widget objects"

/-- `validate_homepage_format`: the empty-document check and the dispatch on
the declared file name (the unused raw-content argument is dropped).  Only
the bookmarks validator can raise, so the others are lifted into `.ok`. -/
def validate_homepage_format (filename : String) (parsed : Val) :
    Except String (Option String) :=
  if !parsed.truthy then .ok (some "Empty configuration file")
  else if filename == "bookmarks.yaml" then validate_bookmarks_format parsed
  else if filename == "services.yaml" then .ok (validate_services_format parsed)
  else if filename == "settings.yaml" then .ok (validate_settings_format parsed)
  else if filename == "widgets.yaml" then .ok (validate_widgets_format parsed)
  else .ok none

/-- After an initial digit, the rest of a Python integer literal body: more
digits, with a single grouping underscore allowed only between digits. -/
def digitsTail : List Char → Bool
  | [] => true
  | '_' :: rest =>
    match rest with
    | c :: rest2 => c.isDigit && digitsTail rest2
    | [] => false
  | c :: rest => c.isDigit && digitsTail rest

/-- The digit body Python `int(string)` accepts after the optional sign:
one or more decimal digits with single grouping underscores between digits
(`1_0` parses, `_1`, `1_` and `1__0` raise ValueError). -/
def pyIntDigits : List Char → Bool
  | [] => false
  | c :: rest => c.isDigit && digitsTail rest

/-- Python `int(string)` as used on the position form field: optional
surrounding whitespace, an optional sign, then a digit body per
`pyIntDigits`; any other string raises ValueError, i.e. parses to `none`.
The model is conservative where Python is broader — non-ASCII decimal
digits and non-ASCII whitespace, which Python also accepts, are not
modelled — so a `some` result always agrees with Python, and the theorems
below assert parse failure only at concrete ASCII inputs. -/
def pyStrToInt (s : String) : Option Int :=
  let t := ((s.data.dropWhile Char.isWhitespace).reverse.dropWhile
    Char.isWhitespace).reverse
  let sd : Int × List Char :=
    match t with
    | '-' :: r => (-1, r)
    | '+' :: r => (1, r)
    | r => (1, r)
  if pyIntDigits sd.2 then
    some (sd.1 *
      ((sd.2.filter (fun c => c != '_')).foldl
        (fun acc c => acc * 10 + (c.toNat - 48)) (0 : Nat) : Nat))
  else none

/-- Position placement in `reorder_bookmark`: append when the position is at
or beyond the end, otherwise Python `list.insert` — a non-negative index
inserts there, a negative index counts from the end, clamped at 0. -/
def placeAt (l : List (String × Val)) (position : Int) (x : String × Val) :
    List (String × Val) :=
  if (l.length : Int) ≤ position then l ++ [x]
  else
    let j : Nat :=
      if position < 0 then ((l.length : Int) + position).toNat
      else position.toNat
    l.insertIdx j x

/-- Python `OrderedDict(target_items)` rebuilt from a key-value pair list
(the last step of `reorder_bookmark`): entries are assigned left to right,
a repeated key keeping the first occurrence's position with the later
value winning. -/
def odFromPairs (pairs : List (String × Val)) : List (String × Val) :=
  pairs.foldl (fun acc p => setKey acc p.1 p.2) []

/-- The document mutation of `reorder_bookmark` once the parameters are
parsed: existence check (a missing bookmark is a returned error), removal
from the source category, deletion of the source category if emptied,
creation of the target category if absent, positioned insertion into the
item list, and the `OrderedDict(target_items)` rebuild (which merges a
duplicated bookmark name).  The `.error` value is the endpoint's returned
error message (nothing here raises). -/
def reorder_core (bookmarks : Doc)
    (source_category bookmark_name target_category : String)
    (position : Int) : Except String Doc :=
  match getKey bookmarks source_category with
  | none =>
    .error
      ("Bookmark \"" ++ bookmark_name ++ "\" not found in category \"" ++
        source_category ++ "\"")
  | some src =>
    match getKey src bookmark_name with
    | none =>
      .error
        ("Bookmark \"" ++ bookmark_name ++ "\" not found in category \"" ++
          source_category ++ "\"")
    | some bookmark_data =>
      let srcRemoved := delKey src bookmark_name
      let b1 := setKey bookmarks source_category srcRemoved
      let b2 := if srcRemoved.isEmpty then delKey b1 source_category else b1
      let b3 := if hasKey b2 target_category then b2
                else b2 ++ [(target_category, [])]
      let target_items := (getKey b3 target_category).getD []
      .ok
        (setKey b3 target_category
          (odFromPairs (placeAt target_items position (bookmark_name, bookmark_data))))

/-- The `reorder_bookmark` endpoint on its form fields (file I/O elided):
empty required parameters are rejected, the position string is parsed with
Python `int`, then the mutation core runs. -/
def reorder_bookmark (bookmarks : Doc)
    (source_category bookmark_name target_category position : String) :
    Except String Doc :=
  if source_category.isEmpty || bookmark_name.isEmpty || target_category.isEmpty
  then .error "Missing required parameters"
  else
    match pyStrToInt position with
    | none => .error "Invalid position value"
    | some p =>
      reorder_core bookmarks source_category bookmark_name target_category p

/-- The round-trip claim's conditions on one stored properties value: a
mapping with no duplicate keys, only the keys href/icon/abbr, a present
href, and no null values. -/
def goodProps : Val → Bool
  | .map pm =>
    decide ((pm.map Prod.fst).Nodup) &&
    (getKey pm "href").isSome &&
    pm.all (fun kv =>
      (kv.1 == "href" || kv.1 == "icon" || kv.1 == "abbr") && !kv.2.isNull)
  | _ => false

/-- The round-trip claim's conditions on an ordered-form document: category
names distinct (a dict invariant), every category non-empty with distinct
bookmark names, and every bookmark's properties as in `goodProps`. -/
def goodDoc (d : Doc) : Bool :=
  decide ((d.map Prod.fst).Nodup) &&
  d.all (fun c =>
    !c.2.isEmpty && decide ((c.2.map Prod.fst).Nodup) &&
    c.2.all (fun b => goodProps b.2))

/-- What one stored properties value becomes after a save/load round trip
(the list branch rereads the first properties mapping). -/
def normProps : Val → Val
  | .map pm => extractProps pm
  | v => v

/-- What an ordered document becomes after a save/load round trip. -/
def normDoc (d : Doc) : Doc :=
  d.map (fun c => (c.1, c.2.map (fun b => (b.1, normProps b.2))))

/-- Python `==` between two plain dicts: key-order-insensitive — each side's
entries are looked up in the other. -/
def pyMapEq (a b : List (String × Val)) : Bool :=
  a.all (fun kv =>
    match getKey b kv.1 with
    | some w => Val.beq kv.2 w
    | none => false) &&
  b.all (fun kv =>
    match getKey a kv.1 with
    | some w => Val.beq kv.2 w
    | none => false)

/-- Python `==` between two stored properties values: plain dicts compare
key-order-insensitively, other values structurally. -/
def pyPropsEq : Val → Val → Bool
  | .map a, .map b => pyMapEq a b
  | x, y => Val.beq x y

/-- Python `==` between two bookmark OrderedDicts: order-sensitive on the
(name, properties) sequence, properties compared as Python does. -/
def pyBmEq (a b : List (String × Val)) : Bool :=
  a.length == b.length &&
  (a.zip b).all (fun p => p.1.1 == p.2.1 && pyPropsEq p.1.2 p.2.2)

/-- Python `==` between two ordered documents (OrderedDict of OrderedDict):
order-sensitive at the category and bookmark levels, key-order-insensitive
at the properties level. -/
def pyDocEq (a b : Doc) : Bool :=
  a.length == b.length &&
  (a.zip b).all (fun p => p.1.1 == p.2.1 && pyBmEq p.1.2 p.2.2)

/-- Whether one bookmark-entry value is safe for the list branch's property
read: if it is a non-empty sequence, its first element is a mapping. -/
def headPropsOk : Val → Bool
  | .list (p0 :: _) => p0.isMap
  | _ => true

/-- Whether one bookmark item is safe for the list branch: when it is a
mapping, each of its values satisfies `headPropsOk`. -/
def bItemOk : Val → Bool
  | .map bpairs => bpairs.all (fun bp => headPropsOk bp.2)
  | _ => true

/-- Whether one category value is safe for the list branch. -/
def catValOk : Val → Bool
  | .list bitems => bitems.all bItemOk
  | _ => true

/-- Whether one category item is safe for the list branch. -/
def catItemOk : Val → Bool
  | .map cpairs => cpairs.all (fun cp => catValOk cp.2)
  | _ => true

/-- The domain on which `toOrdered` raises nothing: every bookmark value
reached by the list branch satisfies `headPropsOk`, and every category value
reached by the mapping branch is accepted by `OrderedDict(...)`. -/
def convOk : Val → Bool
  | .list cats => cats.all catItemOk
  | .map pairs => pairs.all (fun p => (pyOrderedDict p.2).isOk)
  | _ => true

/-- Well-shapedness of one property value: a mapping whose href, when
present, is a string. -/
def wsProp : Val → Bool
  | .map m =>
    match getKey m "href" with
    | some (.str _) => true
    | some _ => false
    | none => true
  | _ => false

/-- Well-shapedness of a bookmarks document for the validator claim: a
sequence of single-key category mappings, each value a sequence of
single-key bookmark mappings, each value a sequence of property mappings
whose href values (when present) are strings. -/
def wellShapedProps (props : List Val) : Bool :=
  props.all wsProp

/-- Well-shapedness of one bookmark entry: a single-key mapping whose value
is a sequence of well-shaped property mappings. -/
def wsBmEntry : Val → Bool
  | .map [(_, .list props)] => wellShapedProps props
  | _ => false

/-- Well-shapedness of the bookmark items of one category. -/
def wellShapedBookmarks (bitems : List Val) : Bool :=
  bitems.all wsBmEntry

/-- Well-shapedness of one category entry: a single-key mapping whose value
is a sequence of well-shaped bookmark entries. -/
def wsCatEntry : Val → Bool
  | .map [(_, .list bitems)] => wellShapedBookmarks bitems
  | _ => false

/-- Well-shapedness of a whole bookmarks document. -/
def wellShaped (data : Val) : Bool :=
  match data with
  | .list cats => cats.all wsCatEntry
  | _ => false

/-- Whether one property value is a mapping containing key `href`. -/
def propHasHref : Val → Bool
  | .map m => (getKey m "href").isSome
  | _ => false

/-- Whether one property value's href, when present, is a string with an
accepted scheme. -/
def propHrefValid : Val → Bool
  | .map m =>
    match getKey m "href" with
    | some (.str s) => hrefValid s
    | some _ => false
    | none => true
  | _ => true

/-- Modelled from the spec's words for the validator claim: one bookmark's
href condition — at least one property mapping contains `href`, and every
href value starts with an accepted scheme. -/
def specBookmarkHrefOk (props : List Val) : Bool :=
  props.any propHasHref && props.all propHrefValid

/-- The href condition of one bookmark entry, vacuous off-shape. -/
def specBmEntryOk : Val → Bool
  | .map [(_, .list props)] => specBookmarkHrefOk props
  | _ => true

/-- The href condition of one category entry, vacuous off-shape. -/
def specCatEntryOk : Val → Bool
  | .map [(_, .list bitems)] => bitems.all specBmEntryOk
  | _ => true

/-- Modelled from the spec's words: every bookmark of a well-shaped
document satisfies `specBookmarkHrefOk`. -/
def specAllBookmarksOk (data : Val) : Bool :=
  match data with
  | .list cats => cats.all specCatEntryOk
  | _ => false

/-- The external entry of one retained category:
`{categoryName: [...bookmarkEntries]}`. -/
def extCategory (c : String × List (String × Val)) : Val :=
  Val.map [(c.1, Val.list (c.2.map extBookmark))]

/-! Helper lemmas about the ordered-dict operations. -/

theorem getKey_cons {α : Type} (a c : String) (b : α) (t : List (String × α)) :
    getKey ((a, b) :: t) c = if a = c then some b else getKey t c := by
  by_cases h : a = c <;> simp [getKey, h]

theorem hasKey_iff_isSome {α : Type} (m : List (String × α)) (k : String) :
    hasKey m k = true ↔ (getKey m k).isSome := by
  induction m with
  | nil => simp [hasKey, getKey]
  | cons p t ih =>
    obtain ⟨a, b⟩ := p
    rw [getKey_cons]
    by_cases h : a = k <;> simp [hasKey, h, ih]

theorem getKey_eq_none_of_hasKey_false {α : Type} {m : List (String × α)}
    {k : String} (h : hasKey m k = false) : getKey m k = none := by
  cases hg : getKey m k with
  | none => rfl
  | some v =>
    have h2 : hasKey m k = true := (hasKey_iff_isSome m k).mpr (by simp [hg])
    rw [h] at h2
    exact absurd h2 (by simp)

theorem getKey_append_left {α : Type} {m : List (String × α)} (m' : List (String × α))
    {k : String} {v : α} (h : getKey m k = some v) :
    getKey (m ++ m') k = some v := by
  induction m with
  | nil => simp [getKey] at h
  | cons p t ih =>
    obtain ⟨a, b⟩ := p
    rw [getKey_cons] at h
    rw [List.cons_append, getKey_cons]
    by_cases hk : a = k <;> simp only [hk, if_true, if_false] at h ⊢
    · exact h
    · exact ih h

theorem getKey_append_right {α : Type} {m : List (String × α)} (m' : List (String × α))
    {k : String} (h : getKey m k = none) :
    getKey (m ++ m') k = getKey m' k := by
  induction m with
  | nil => simp [getKey]
  | cons p t ih =>
    obtain ⟨a, b⟩ := p
    rw [getKey_cons] at h
    rw [List.cons_append, getKey_cons]
    by_cases hk : a = k
    · simp [hk] at h
    · simp only [hk, if_false] at h ⊢
      exact ih h

theorem setKey_of_hasKey_false {α : Type} {m : List (String × α)} {k : String}
    (v : α) (h : hasKey m k = false) : setKey m k v = m ++ [(k, v)] := by
  induction m with
  | nil => rfl
  | cons p t ih =>
    simp only [hasKey, Bool.or_eq_false_iff] at h
    rw [setKey, h.1]
    simp [ih h.2]

theorem getKey_setKey_self {α : Type} (m : List (String × α)) (k : String) (v : α) :
    getKey (setKey m k v) k = some v := by
  induction m with
  | nil => simp [setKey, getKey]
  | cons p t ih =>
    obtain ⟨a, b⟩ := p
    rw [setKey]
    by_cases ha : a = k
    · simp [ha, getKey_cons]
    · simp only [ha, beq_iff_eq, if_false]
      rw [getKey_cons]
      simp only [ha, if_false]
      exact ih

theorem getKey_setKey_ne {α : Type} (m : List (String × α)) {c k : String}
    (v : α) (h : c ≠ k) : getKey (setKey m k v) c = getKey m c := by
  induction m with
  | nil => simp [setKey, getKey_cons, Ne.symm h, getKey]
  | cons p t ih =>
    obtain ⟨a, b⟩ := p
    rw [setKey]
    by_cases ha : a = k
    · simp only [ha, beq_self_eq_true, if_true]
      rw [getKey_cons, getKey_cons]
      simp [ha, Ne.symm h]
    · simp only [ha, beq_iff_eq, if_false]
      rw [getKey_cons, getKey_cons, ih]

theorem hasKey_setKey_self {α : Type} (m : List (String × α)) (k : String) (v : α) :
    hasKey (setKey m k v) k = true := by
  rw [hasKey_iff_isSome, getKey_setKey_self]
  rfl

theorem setKey_setKey {α : Type} (m : List (String × α)) (k : String) (v w : α) :
    setKey (setKey m k v) k w = setKey m k w := by
  induction m with
  | nil => simp [setKey]
  | cons p t ih =>
    obtain ⟨a, b⟩ := p
    by_cases ha : a = k
    · simp [setKey, ha]
    · simp [setKey, ha, ih]

theorem getKey_delKey_self {α : Type} (m : List (String × α)) (k : String) :
    getKey (delKey m k) k = none := by
  induction m with
  | nil => rfl
  | cons p t ih =>
    obtain ⟨a, b⟩ := p
    rw [delKey]
    by_cases ha : a = k
    · simpa [ha] using ih
    · simp only [ha, beq_iff_eq, if_false]
      rw [getKey_cons]
      simp only [ha, if_false]
      exact ih

theorem getKey_delKey_ne {α : Type} (m : List (String × α)) {c k : String}
    (h : c ≠ k) : getKey (delKey m k) c = getKey m c := by
  induction m with
  | nil => rfl
  | cons p t ih =>
    obtain ⟨a, b⟩ := p
    rw [delKey]
    by_cases ha : a = k
    · simp only [ha, beq_self_eq_true, if_true]
      rw [getKey_cons]
      have : k ≠ c := Ne.symm h
      simp [this, ih]
    · simp only [ha, beq_iff_eq, if_false]
      rw [getKey_cons, getKey_cons, ih]

theorem hasKey_delKey_self {α : Type} (m : List (String × α)) (k : String) :
    hasKey (delKey m k) k = false := by
  rw [← Bool.not_eq_true, hasKey_iff_isSome, getKey_delKey_self]
  simp

/-! Helper lemmas characterising `toExternal`. -/

theorem bookmarks_loop_eq (bs : List (String × Val)) (acc : List Val) :
    bs.foldl (fun bacc b => bacc ++ [extBookmark b]) acc =
      acc ++ bs.map extBookmark := by
  induction bs generalizing acc with
  | nil => simp
  | cons b t ih => simp [ih]

theorem categories_loop_eq (d : Doc) (acc : List Val) :
    d.foldl
      (fun acc c =>
        if c.2.isEmpty then acc
        else
          acc ++
            [Val.map
              [(c.1,
                Val.list (c.2.foldl (fun bacc b => bacc ++ [extBookmark b]) []))]])
      acc =
    acc ++ (d.filter (fun c => !c.2.isEmpty)).map extCategory := by
  induction d generalizing acc with
  | nil => simp
  | cons c t ih =>
    rw [List.foldl_cons, List.filter_cons]
    by_cases hc : c.2.isEmpty
    · simp only [hc, if_true, Bool.not_true, Bool.false_eq_true, if_false]
      exact ih acc
    · simp only [hc, if_false, Bool.not_false, if_true]
      rw [bookmarks_loop_eq c.2 [], List.nil_append, ih]
      simp [extCategory]

theorem toExternal_eq (d : Doc) :
    toExternal d =
      Val.list ((d.filter (fun c => !c.2.isEmpty)).map extCategory) := by
  unfold toExternal
  rw [categories_loop_eq]
  simp

/-! Helper lemmas for the reorder endpoint. -/

theorem getKey_append_single_ne {α : Type} (m : List (String × α)) {c k : String}
    (v : α) (h : c ≠ k) : getKey (m ++ [(k, v)]) c = getKey m c := by
  cases hm : getKey m c with
  | some w => exact getKey_append_left _ hm
  | none =>
    rw [getKey_append_right _ hm, getKey_cons]
    simp [Ne.symm h, getKey]

theorem placeAt_nonneg (l : List (String × Val)) (p : Int) (x : String × Val)
    (hp : 0 ≤ p) : placeAt l p x = l.insertIdx (min p.toNat l.length) x := by
  unfold placeAt
  by_cases h : (l.length : Int) ≤ p
  · have h1 : l.length ≤ p.toNat := by omega
    rw [if_pos h, min_eq_right h1, List.insertIdx_length_self]
  · have h2 : p.toNat < l.length := by omega
    have h3 : ¬p < 0 := not_lt.mpr hp
    rw [if_neg h]
    simp only [h3, if_false]
    rw [min_eq_left (le_of_lt h2)]

theorem placeAt_neg (l : List (String × Val)) (p : Int) (x : String × Val)
    (hneg : p < 0) : placeAt l p x = l.insertIdx ((l.length : Int) + p).toNat x := by
  unfold placeAt
  have h : ¬(l.length : Int) ≤ p := by omega
  rw [if_neg h, if_pos hneg]

theorem reorder_bookmark_parsed (d : Doc) (A n B s : String) (p : Int)
    (hs : pyStrToInt s = some p)
    (hA : A.isEmpty = false) (hn : n.isEmpty = false) (hB : B.isEmpty = false) :
    reorder_bookmark d A n B s = reorder_core d A n B p := by
  unfold reorder_bookmark
  rw [hA, hn, hB, hs]
  rfl

theorem reorder_bookmark_parse_fail (d : Doc) (A n B s : String)
    (hs : pyStrToInt s = none)
    (hA : A.isEmpty = false) (hn : n.isEmpty = false) (hB : B.isEmpty = false) :
    reorder_bookmark d A n B s = .error "Invalid position value" := by
  unfold reorder_bookmark
  rw [hA, hn, hB, hs]
  rfl

theorem reorder_core_found (d : Doc) (A n B : String) (p : Int)
    (bmsA : List (String × Val)) (data : Val)
    (hA : getKey d A = some bmsA) (hn : getKey bmsA n = some data) :
    reorder_core d A n B p = .ok (
      let b2 := if (delKey bmsA n).isEmpty then
          delKey (setKey d A (delKey bmsA n)) A
        else setKey d A (delKey bmsA n)
      let b3 := if hasKey b2 B then b2 else b2 ++ [(B, [])]
      setKey b3 B (odFromPairs (placeAt ((getKey b3 B).getD []) p (n, data)))) := by
  unfold reorder_core
  rw [hA]
  dsimp only
  rw [hn]

/-! Helper lemmas: `toOrdered` never raises on the `convOk` domain. -/

theorem toOrdered_scalar (v : Val) (h1 : v.isList = false) (h2 : v.isMap = false) :
    toOrdered v = .ok [] := by
  unfold toOrdered
  by_cases ht : v.truthy = true
  · rw [if_pos ht]
    cases v with
    | list xs => simp [Val.isList] at h1
    | map m => simp [Val.isMap] at h2
    | null => rfl
    | bool b => rfl
    | int n => rfl
    | str s => rfl
  · rw [if_neg ht]
    rfl

theorem ordBPairs_ok (c : String) (bpairs : List (String × Val)) :
    ∀ conv, bpairs.all (fun bp => headPropsOk bp.2) = true →
      ∃ r, ordBPairs c conv bpairs = .ok r := by
  induction bpairs with
  | nil => exact fun conv _ => ⟨conv, rfl⟩
  | cons bp rest ih =>
    intro conv h
    rw [List.all_cons, Bool.and_eq_true] at h
    obtain ⟨bname, plist⟩ := bp
    cases plist with
    | null => exact ih conv h.2
    | bool b => exact ih conv h.2
    | int n => exact ih conv h.2
    | str s => exact ih conv h.2
    | map m => exact ih conv h.2
    | list xs =>
      cases xs with
      | nil => exact ih conv h.2
      | cons p0 ps =>
        cases p0 with
        | map m => exact ih (setInner conv c bname (extractProps m)) h.2
        | null => simp [headPropsOk, Val.isMap] at h
        | bool b => simp [headPropsOk, Val.isMap] at h
        | int n => simp [headPropsOk, Val.isMap] at h
        | str s => simp [headPropsOk, Val.isMap] at h
        | list ys => simp [headPropsOk, Val.isMap] at h

theorem ordBItems_ok (c : String) (bitems : List Val) :
    ∀ conv, bitems.all bItemOk = true →
      ∃ r, ordBItems c conv bitems = .ok r := by
  induction bitems with
  | nil => exact fun conv _ => ⟨conv, rfl⟩
  | cons b rest ih =>
    intro conv h
    rw [List.all_cons, Bool.and_eq_true] at h
    cases b with
    | map bpairs =>
      obtain ⟨r, hr⟩ := ordBPairs_ok c bpairs conv (by simpa [bItemOk] using h.1)
      show (∃ r2,
        (match ordBPairs c conv bpairs with
          | .ok conv2 => ordBItems c conv2 rest
          | .error e => .error e) = .ok r2)
      rw [hr]
      exact ih r h.2
    | null => exact ih conv h.2
    | bool b2 => exact ih conv h.2
    | int n => exact ih conv h.2
    | str s => exact ih conv h.2
    | list ys => exact ih conv h.2

theorem ordCPairs_ok (cpairs : List (String × Val)) :
    ∀ conv, cpairs.all (fun cp => catValOk cp.2) = true →
      ∃ r, ordCPairs conv cpairs = .ok r := by
  induction cpairs with
  | nil => exact fun conv _ => ⟨conv, rfl⟩
  | cons cp rest ih =>
    intro conv h
    rw [List.all_cons, Bool.and_eq_true] at h
    obtain ⟨cname, blist⟩ := cp
    cases blist with
    | list bitems =>
      obtain ⟨r, hr⟩ :=
        ordBItems_ok cname bitems (setKey conv cname [])
          (by simpa [catValOk] using h.1)
      show (∃ r2,
        (match ordBItems cname (setKey conv cname []) bitems with
          | .ok conv2 => ordCPairs conv2 rest
          | .error e => .error e) = .ok r2)
      rw [hr]
      exact ih r h.2
    | null => exact ih (setKey conv cname []) h.2
    | bool b => exact ih (setKey conv cname []) h.2
    | int n => exact ih (setKey conv cname []) h.2
    | str s => exact ih (setKey conv cname []) h.2
    | map m => exact ih (setKey conv cname []) h.2

theorem ordCats_ok (cats : List Val) :
    ∀ conv, cats.all catItemOk = true → ∃ r, ordCats conv cats = .ok r := by
  induction cats with
  | nil => exact fun conv _ => ⟨conv, rfl⟩
  | cons citem rest ih =>
    intro conv h
    rw [List.all_cons, Bool.and_eq_true] at h
    cases citem with
    | map cpairs =>
      obtain ⟨r, hr⟩ := ordCPairs_ok cpairs conv (by simpa [catItemOk] using h.1)
      show (∃ r2,
        (match ordCPairs conv cpairs with
          | .ok conv2 => ordCats conv2 rest
          | .error e => .error e) = .ok r2)
      rw [hr]
      exact ih r h.2
    | null => exact ih conv h.2
    | bool b => exact ih conv h.2
    | int n => exact ih conv h.2
    | str s => exact ih conv h.2
    | list ys => exact ih conv h.2

theorem ordMapPairs_ok (pairs : List (String × Val)) :
    ∀ conv, pairs.all (fun p => (pyOrderedDict p.2).isOk) = true →
      ∃ r, ordMapPairs conv pairs = .ok r := by
  induction pairs with
  | nil => exact fun conv _ => ⟨conv, rfl⟩
  | cons p rest ih =>
    intro conv h
    rw [List.all_cons, Bool.and_eq_true] at h
    cases hpd : pyOrderedDict p.2 with
    | ok inner =>
      show (∃ r2,
        (match pyOrderedDict p.2 with
          | .ok inner2 => ordMapPairs (setKey conv p.1 inner2) rest
          | .error e => .error e) = .ok r2)
      rw [hpd]
      exact ih (setKey conv p.1 inner) h.2
    | error e =>
      rw [hpd] at h
      simp [Except.isOk, Except.toBool] at h

theorem toOrdered_total (v : Val) (h : convOk v = true) :
    ∃ r, toOrdered v = .ok r := by
  cases v with
  | null => exact ⟨[], rfl⟩
  | bool b => exact ⟨[], toOrdered_scalar _ rfl rfl⟩
  | int n => exact ⟨[], toOrdered_scalar _ rfl rfl⟩
  | str s => exact ⟨[], toOrdered_scalar _ rfl rfl⟩
  | list xs =>
    cases xs with
    | nil => exact ⟨[], rfl⟩
    | cons x t =>
      obtain ⟨r, hr⟩ := ordCats_ok (x :: t) [] (by simpa [convOk] using h)
      exact ⟨r, hr⟩
  | map m =>
    cases m with
    | nil => exact ⟨[], rfl⟩
    | cons p t =>
      obtain ⟨r, hr⟩ := ordMapPairs_ok (p :: t) [] (by simpa [convOk] using h)
      exact ⟨r, hr⟩

/-! Helper lemmas for the mapping branch of `toOrdered`. -/

theorem hasKey_append {α : Type} (m m' : List (String × α)) (k : String) :
    hasKey (m ++ m') k = (hasKey m k || hasKey m' k) := by
  induction m with
  | nil => simp [hasKey]
  | cons p t ih => simp [hasKey, ih, Bool.or_assoc]

theorem ordMapPairs_maps (pairs : List (String × Val)) :
    ∀ conv : Doc, (∀ p ∈ pairs, hasKey conv p.1 = false) →
      (pairs.map Prod.fst).Nodup →
      pairs.all (fun p => p.2.isMap) = true →
      ordMapPairs conv pairs =
        .ok (conv ++ pairs.map (fun p => (p.1, p.2.getMap))) := by
  induction pairs with
  | nil =>
    intro conv _ _ _
    simp [ordMapPairs]
  | cons p rest ih =>
    intro conv hdisj hnodup hmaps
    rw [List.all_cons, Bool.and_eq_true] at hmaps
    rw [List.map_cons, List.nodup_cons] at hnodup
    obtain ⟨k, v⟩ := p
    cases v with
    | map m =>
      have hset : setKey conv k m = conv ++ [(k, m)] :=
        setKey_of_hasKey_false m (hdisj (k, Val.map m) (List.mem_cons_self _ _))
      have step : ordMapPairs conv ((k, Val.map m) :: rest) =
          ordMapPairs (setKey conv k m) rest := rfl
      rw [step, hset,
        ih (conv ++ [(k, m)])
          (by
            intro q hq
            rw [hasKey_append, hdisj q (List.mem_cons_of_mem _ hq)]
            have hq1 : q.1 ∈ rest.map Prod.fst := List.mem_map_of_mem _ hq
            have hne : k ≠ q.1 := fun he => hnodup.1 (he ▸ hq1)
            simp [hasKey, hne])
          hnodup.2 hmaps.2]
      simp [Val.getMap]
    | null => simp [Val.isMap] at hmaps
    | bool b => simp [Val.isMap] at hmaps
    | int n => simp [Val.isMap] at hmaps
    | str s => simp [Val.isMap] at hmaps
    | list xs => simp [Val.isMap] at hmaps

/-! Helper lemmas for the bookmarks validator. -/

theorem checkProps_ok (bname : String) (props : List Val) :
    ∀ hasHref : Bool, wellShapedProps props = true →
      ((hasHref || props.any propHasHref) && props.all propHrefValid) = true →
      checkProps bname hasHref props = .ok none := by
  induction props with
  | nil =>
    intro hasHref _ hcond
    simp only [List.any_nil, Bool.or_false, List.all_nil, Bool.and_true] at hcond
    simp [checkProps, hcond]
  | cons p rest ih =>
    intro hasHref hws hcond
    rw [wellShapedProps, List.all_cons, Bool.and_eq_true] at hws
    rw [List.any_cons, List.all_cons] at hcond
    have hws2 : wellShapedProps rest = true := hws.2
    cases p with
    | map m =>
      cases hh : getKey m "href" with
      | none =>
        have step : checkProps bname hasHref (Val.map m :: rest) =
            checkProps bname hasHref rest := by
          simp only [checkProps]
          rw [hh]
        rw [step]
        apply ih hasHref hws2
        simpa [propHasHref, propHrefValid, hh] using hcond
      | some v =>
        cases v with
        | str s =>
          simp only [propHasHref, propHrefValid, hh, Option.isSome_some,
            Bool.or_true, Bool.true_or, Bool.true_and, Bool.and_eq_true] at hcond
          have step : checkProps bname hasHref (Val.map m :: rest) =
              checkProps bname true rest := by
            simp only [checkProps]
            rw [hh]
            dsimp only
            rw [if_pos hcond.1]
          rw [step]
          apply ih true hws2
          simp only [Bool.true_or, Bool.true_and]
          exact hcond.2
        | null =>
          have h1 := hws.1
          simp [wsProp, hh] at h1
        | bool b =>
          have h1 := hws.1
          simp [wsProp, hh] at h1
        | int n =>
          have h1 := hws.1
          simp [wsProp, hh] at h1
        | list xs =>
          have h1 := hws.1
          simp [wsProp, hh] at h1
        | map m2 =>
          have h1 := hws.1
          simp [wsProp, hh] at h1
    | null => simp [wsProp] at hws
    | bool b => simp [wsProp] at hws
    | int n => simp [wsProp] at hws
    | str s => simp [wsProp] at hws
    | list xs => simp [wsProp] at hws

theorem checkProps_err (bname : String) (props : List Val) :
    ∀ hasHref : Bool, wellShapedProps props = true →
      ((hasHref || props.any propHasHref) && props.all propHrefValid) = false →
      ∃ e, checkProps bname hasHref props = .ok (some e) := by
  induction props with
  | nil =>
    intro hasHref _ hcond
    simp only [List.any_nil, Bool.or_false, List.all_nil, Bool.and_true] at hcond
    refine ⟨"Bookmark '" ++ bname ++ "' must have an 'href' property", ?_⟩
    simp [checkProps, hcond]
  | cons p rest ih =>
    intro hasHref hws hcond
    rw [wellShapedProps, List.all_cons, Bool.and_eq_true] at hws
    rw [List.any_cons, List.all_cons] at hcond
    have hws2 : wellShapedProps rest = true := hws.2
    cases p with
    | map m =>
      cases hh : getKey m "href" with
      | none =>
        have step : checkProps bname hasHref (Val.map m :: rest) =
            checkProps bname hasHref rest := by
          simp only [checkProps]
          rw [hh]
        rw [step]
        apply ih hasHref hws2
        simpa [propHasHref, propHrefValid, hh] using hcond
      | some v =>
        cases v with
        | str s =>
          by_cases hv : hrefValid s = true
          · have step : checkProps bname hasHref (Val.map m :: rest) =
                checkProps bname true rest := by
              simp only [checkProps]
              rw [hh]
              dsimp only
              rw [if_pos hv]
            rw [step]
            apply ih true hws2
            simp only [propHasHref, propHrefValid, hh, hv, Option.isSome_some,
              Bool.or_true, Bool.true_or, Bool.true_and] at hcond
            simp only [Bool.true_or, Bool.true_and]
            exact hcond
          · refine ⟨"href in '" ++ bname ++ "' should be a valid URL", ?_⟩
            simp only [checkProps]
            rw [hh]
            dsimp only
            rw [if_neg hv]
        | null =>
          have h1 := hws.1
          simp [wsProp, hh] at h1
        | bool b =>
          have h1 := hws.1
          simp [wsProp, hh] at h1
        | int n =>
          have h1 := hws.1
          simp [wsProp, hh] at h1
        | list xs =>
          have h1 := hws.1
          simp [wsProp, hh] at h1
        | map m2 =>
          have h1 := hws.1
          simp [wsProp, hh] at h1
    | null => simp [wsProp] at hws
    | bool b => simp [wsProp] at hws
    | int n => simp [wsProp] at hws
    | str s => simp [wsProp] at hws
    | list xs => simp [wsProp] at hws

theorem wsBmEntry_shape {b : Val} (h : wsBmEntry b = true) :
    ∃ bname props, b = Val.map [(bname, Val.list props)] ∧
      wellShapedProps props = true := by
  cases b with
  | map bpairs =>
    cases bpairs with
    | nil => simp [wsBmEntry] at h
    | cons pair rest =>
      cases rest with
      | cons q t => simp [wsBmEntry] at h
      | nil =>
        obtain ⟨bname, bdata⟩ := pair
        cases bdata with
        | list props => exact ⟨bname, props, rfl, by simpa [wsBmEntry] using h⟩
        | null => simp [wsBmEntry] at h
        | bool b2 => simp [wsBmEntry] at h
        | int n => simp [wsBmEntry] at h
        | str s => simp [wsBmEntry] at h
        | map m2 => simp [wsBmEntry] at h
  | null => simp [wsBmEntry] at h
  | bool b2 => simp [wsBmEntry] at h
  | int n => simp [wsBmEntry] at h
  | str s => simp [wsBmEntry] at h
  | list xs => simp [wsBmEntry] at h

theorem wsCatEntry_shape {c : Val} (h : wsCatEntry c = true) :
    ∃ cname bitems, c = Val.map [(cname, Val.list bitems)] ∧
      wellShapedBookmarks bitems = true := by
  cases c with
  | map cpairs =>
    cases cpairs with
    | nil => simp [wsCatEntry] at h
    | cons pair rest =>
      cases rest with
      | cons q t => simp [wsCatEntry] at h
      | nil =>
        obtain ⟨cname, cdata⟩ := pair
        cases cdata with
        | list bitems => exact ⟨cname, bitems, rfl, by simpa [wsCatEntry] using h⟩
        | null => simp [wsCatEntry] at h
        | bool b2 => simp [wsCatEntry] at h
        | int n => simp [wsCatEntry] at h
        | str s => simp [wsCatEntry] at h
        | map m2 => simp [wsCatEntry] at h
  | null => simp [wsCatEntry] at h
  | bool b2 => simp [wsCatEntry] at h
  | int n => simp [wsCatEntry] at h
  | str s => simp [wsCatEntry] at h
  | list xs => simp [wsCatEntry] at h

theorem checkBookmarks_ok (cname : String) : ∀ bitems : List Val,
    wellShapedBookmarks bitems = true → bitems.all specBmEntryOk = true →
    checkBookmarks cname bitems = .ok none := by
  intro bitems
  induction bitems with
  | nil => intro _ _; rfl
  | cons b rest ih =>
    intro hws hok
    rw [wellShapedBookmarks, List.all_cons, Bool.and_eq_true] at hws
    rw [List.all_cons, Bool.and_eq_true] at hok
    obtain ⟨bname, props, rfl, hwsp⟩ := wsBmEntry_shape hws.1
    have h1 := hok.1
    simp only [specBmEntryOk, specBookmarkHrefOk, Bool.and_eq_true] at h1
    have hcp : checkProps bname false props = .ok none := by
      apply checkProps_ok bname props false hwsp
      simp [h1.1, h1.2]
    have step : checkBookmarks cname (Val.map [(bname, Val.list props)] :: rest) =
        checkBookmarks cname rest := by
      simp only [checkBookmarks]
      rw [hcp]
    rw [step]
    exact ih hws.2 hok.2

theorem checkBookmarks_err (cname : String) : ∀ bitems : List Val,
    wellShapedBookmarks bitems = true → bitems.all specBmEntryOk = false →
    ∃ e, checkBookmarks cname bitems = .ok (some e) := by
  intro bitems
  induction bitems with
  | nil => intro _ h; simp at h
  | cons b rest ih =>
    intro hws hok
    rw [wellShapedBookmarks, List.all_cons, Bool.and_eq_true] at hws
    rw [List.all_cons] at hok
    obtain ⟨bname, props, rfl, hwsp⟩ := wsBmEntry_shape hws.1
    by_cases h1 : specBmEntryOk (Val.map [(bname, Val.list props)]) = true
    · have h2 : rest.all specBmEntryOk = false := by
        rw [h1, Bool.true_and] at hok
        exact hok
      have h1' := h1
      simp only [specBmEntryOk, specBookmarkHrefOk, Bool.and_eq_true] at h1'
      have hcp : checkProps bname false props = .ok none := by
        apply checkProps_ok bname props false hwsp
        simp [h1'.1, h1'.2]
      have step : checkBookmarks cname (Val.map [(bname, Val.list props)] :: rest) =
          checkBookmarks cname rest := by
        simp only [checkBookmarks]
        rw [hcp]
      rw [step]
      exact ih hws.2 h2
    · have h1' : specBookmarkHrefOk props = false := by
        cases hs : specBookmarkHrefOk props
        · rfl
        · exact absurd (by simp [specBmEntryOk, hs]) h1
      obtain ⟨e, hcp⟩ := checkProps_err bname props false hwsp
        (by simpa [specBookmarkHrefOk] using h1')
      refine ⟨e, ?_⟩
      simp only [checkBookmarks]
      rw [hcp]

theorem checkCategories_ok : ∀ cats : List Val,
    cats.all wsCatEntry = true → cats.all specCatEntryOk = true →
    checkCategories cats = .ok none := by
  intro cats
  induction cats with
  | nil => intro _ _; rfl
  | cons c rest ih =>
    intro hws hok
    rw [List.all_cons, Bool.and_eq_true] at hws hok
    obtain ⟨cname, bitems, rfl, hwsb⟩ := wsCatEntry_shape hws.1
    have h1 := hok.1
    simp only [specCatEntryOk] at h1
    have hcb : checkBookmarks cname bitems = .ok none :=
      checkBookmarks_ok cname bitems hwsb h1
    have step : checkCategories (Val.map [(cname, Val.list bitems)] :: rest) =
        checkCategories rest := by
      simp only [checkCategories]
      rw [hcb]
    rw [step]
    exact ih hws.2 hok.2

theorem checkCategories_err : ∀ cats : List Val,
    cats.all wsCatEntry = true → cats.all specCatEntryOk = false →
    ∃ e, checkCategories cats = .ok (some e) := by
  intro cats
  induction cats with
  | nil => intro _ h; simp at h
  | cons c rest ih =>
    intro hws hok
    rw [List.all_cons, Bool.and_eq_true] at hws
    rw [List.all_cons] at hok
    obtain ⟨cname, bitems, rfl, hwsb⟩ := wsCatEntry_shape hws.1
    by_cases h1 : specCatEntryOk (Val.map [(cname, Val.list bitems)]) = true
    · have h2 : rest.all specCatEntryOk = false := by
        rw [h1, Bool.true_and] at hok
        exact hok
      have h1' := h1
      simp only [specCatEntryOk] at h1'
      have hcb : checkBookmarks cname bitems = .ok none :=
        checkBookmarks_ok cname bitems hwsb h1'
      have step : checkCategories (Val.map [(cname, Val.list bitems)] :: rest) =
          checkCategories rest := by
        simp only [checkCategories]
        rw [hcb]
      rw [step]
      exact ih hws.2 h2
    · have h1' : bitems.all specBmEntryOk = false := by
        cases hs : bitems.all specBmEntryOk
        · rfl
        · exact absurd (by simp [specCatEntryOk, hs]) h1
      obtain ⟨e, hcb⟩ := checkBookmarks_err cname bitems hwsb h1'
      refine ⟨e, ?_⟩
      simp only [checkCategories]
      rw [hcb]

/-! Helper lemmas for the round-trip claim. -/

theorem setKey_getKey_self {α : Type} {m : List (String × α)} {k : String}
    {v : α} (h : getKey m k = some v) : setKey m k v = m := by
  induction m with
  | nil => simp [getKey] at h
  | cons p t ih =>
    obtain ⟨a, b⟩ := p
    rw [setKey]
    by_cases ha : a = k
    · rw [getKey_cons, if_pos ha] at h
      obtain rfl : b = v := Option.some_injective _ h
      simp [ha]
    · rw [getKey_cons, if_neg ha] at h
      simp only [ha, beq_iff_eq, if_false]
      rw [ih h]

theorem mem_of_getKey {α : Type} {m : List (String × α)} {k : String} {v : α}
    (h : getKey m k = some v) : (k, v) ∈ m := by
  induction m with
  | nil => simp [getKey] at h
  | cons p t ih =>
    obtain ⟨a, b⟩ := p
    rw [getKey_cons] at h
    by_cases ha : a = k
    · rw [if_pos ha] at h
      obtain rfl : b = v := Option.some_injective _ h
      rw [ha]
      exact List.mem_cons_self _ _
    · rw [if_neg ha] at h
      exact List.mem_cons_of_mem _ (ih h)

theorem getKey_of_mem_nodup {α : Type} {m : List (String × α)} {k : String}
    {v : α} (hnd : (m.map Prod.fst).Nodup) (h : (k, v) ∈ m) :
    getKey m k = some v := by
  induction m with
  | nil => simp at h
  | cons p t ih =>
    obtain ⟨a, b⟩ := p
    rw [List.map_cons, List.nodup_cons] at hnd
    rw [getKey_cons]
    rcases List.mem_cons.mp h with heq | hmem
    · have h1 : k = a := congrArg Prod.fst heq
      have h2 : v = b := congrArg Prod.snd heq
      rw [if_pos h1.symm, h2]
    · by_cases ha : a = k
      · exfalso
        apply hnd.1
        rw [ha]
        have hk := List.mem_map_of_mem Prod.fst hmem
        exact hk
      · rw [if_neg ha]
        exact ih hnd.2 hmem

theorem isNull_eq_false {v : Val} (h : v ≠ Val.null) : v.isNull = false := by
  cases v with
  | null => exact absurd rfl h
  | bool b => rfl
  | int n => rfl
  | str s => rfl
  | list xs => rfl
  | map m => rfl

mutual

theorem Val.beq_refl : ∀ v : Val, Val.beq v v = true
  | .null => rfl
  | .bool b => by simp [Val.beq]
  | .int n => by simp [Val.beq]
  | .str s => by simp [Val.beq]
  | .list xs => Val.beqList_refl xs
  | .map m => Val.beqMap_refl m

theorem Val.beqList_refl : ∀ xs : List Val, Val.beqList xs xs = true
  | [] => rfl
  | x :: xs => by
    rw [Val.beqList, Val.beq_refl x, Val.beqList_refl xs]
    rfl

theorem Val.beqMap_refl : ∀ m : List (String × Val), Val.beqMap m m = true
  | [] => rfl
  | (k, v) :: m => by
    rw [Val.beqMap, Val.beq_refl v, Val.beqMap_refl m]
    simp

end

theorem ordBItems_mapped (c : String) (bms : List (String × Val)) :
    ∀ (conv : Doc) (cur : List (String × Val)),
      getKey conv c = some cur →
      (∀ b ∈ bms, hasKey cur b.1 = false) →
      (bms.map Prod.fst).Nodup →
      (∀ b ∈ bms, ∃ pm, b.2 = Val.map pm) →
      ordBItems c conv (bms.map extBookmark) =
        .ok (setKey conv c (cur ++ bms.map (fun b => (b.1, normProps b.2)))) := by
  induction bms with
  | nil =>
    intro conv cur hcur _ _ _
    simp only [List.map_nil, List.append_nil]
    rw [setKey_getKey_self hcur]
    rfl
  | cons b rest ih =>
    intro conv cur hcur hdisj hnd hmaps
    obtain ⟨bname, props⟩ := b
    obtain ⟨pm, hpm⟩ := hmaps _ (List.mem_cons_self _ _)
    simp only at hpm
    subst hpm
    rw [List.map_cons, List.nodup_cons] at hnd
    have step : ordBItems c conv
        (extBookmark (bname, Val.map pm) :: rest.map extBookmark) =
        ordBItems c (setInner conv c bname (extractProps pm))
          (rest.map extBookmark) := rfl
    rw [List.map_cons, step]
    have hset : setInner conv c bname (extractProps pm) =
        setKey conv c (cur ++ [(bname, extractProps pm)]) := by
      rw [setInner, hcur]
      rw [show (some cur).getD ([] : List (String × Val)) = cur from rfl,
        setKey_of_hasKey_false _ (hdisj _ (List.mem_cons_self _ _))]
    rw [hset]
    rw [ih (setKey conv c (cur ++ [(bname, extractProps pm)]))
      (cur ++ [(bname, extractProps pm)])
      (getKey_setKey_self _ _ _)
      (fun b hb => by
        rw [hasKey_append, hdisj b (List.mem_cons_of_mem _ hb)]
        have hb1 : b.1 ∈ rest.map Prod.fst := List.mem_map_of_mem _ hb
        have hne : bname ≠ b.1 := fun he => hnd.1 (he ▸ hb1)
        simp [hasKey, hne])
      hnd.2
      (fun b hb => hmaps b (List.mem_cons_of_mem _ hb))]
    rw [setKey_setKey]
    simp [normProps]

theorem ordCats_mapped (d : Doc) :
    ∀ conv : Doc,
      (∀ cb ∈ d, hasKey conv cb.1 = false) →
      (d.map Prod.fst).Nodup →
      (∀ cb ∈ d,
        (cb.2.map Prod.fst).Nodup ∧ ∀ b ∈ cb.2, ∃ pm, b.2 = Val.map pm) →
      ordCats conv (d.map extCategory) = .ok (conv ++ normDoc d) := by
  induction d with
  | nil =>
    intro conv _ _ _
    simp [normDoc, ordCats]
  | cons cb rest ih =>
    intro conv hdisj hnd hgood
    obtain ⟨cname, bms⟩ := cb
    rw [List.map_cons, List.nodup_cons] at hnd
    obtain ⟨hbnd, hbmaps⟩ := hgood _ (List.mem_cons_self _ _)
    have h1 := ordBItems_mapped cname bms (setKey conv cname []) []
      (getKey_setKey_self _ _ _) (fun b _ => rfl) hbnd hbmaps
    have h2 : ordCPairs conv [(cname, Val.list (bms.map extBookmark))] =
        .ok (setKey (setKey conv cname []) cname
          ([] ++ bms.map (fun b => (b.1, normProps b.2)))) := by
      show (match ordBItems cname (setKey conv cname []) (bms.map extBookmark) with
        | .ok conv2 => ordCPairs conv2 []
        | .error e => .error e) = _
      rw [h1]
      rfl
    have step : ordCats conv (extCategory (cname, bms) :: rest.map extCategory) =
        ordCats (setKey (setKey conv cname []) cname
          ([] ++ bms.map (fun b => (b.1, normProps b.2)))) (rest.map extCategory) := by
      show (match ordCPairs conv [(cname, Val.list (bms.map extBookmark))] with
        | .ok c2 => ordCats c2 (rest.map extCategory)
        | .error e => .error e) = _
      rw [h2]
    rw [List.map_cons, step, setKey_setKey, List.nil_append,
      setKey_of_hasKey_false _ (hdisj _ (List.mem_cons_self _ _))]
    rw [ih (conv ++ [(cname, bms.map (fun b => (b.1, normProps b.2)))])
      (fun cb hcb => by
        rw [hasKey_append, hdisj cb (List.mem_cons_of_mem _ hcb)]
        have hb1 : cb.1 ∈ rest.map Prod.fst := List.mem_map_of_mem _ hcb
        have hne : cname ≠ cb.1 := fun he => hnd.1 (he ▸ hb1)
        simp [hasKey, hne])
      hnd.2
      (fun cb hcb => hgood cb (List.mem_cons_of_mem _ hcb))]
    simp [normDoc]

theorem pyPropsEq_extract (pm : List (String × Val))
    (h : goodProps (Val.map pm) = true) :
    pyPropsEq (extractProps pm) (Val.map pm) = true := by
  simp only [goodProps, Bool.and_eq_true, decide_eq_true_eq] at h
  obtain ⟨⟨hnd, hsome⟩, hall⟩ := h
  rw [List.all_eq_true] at hall
  obtain ⟨hvv, hhv⟩ := Option.isSome_iff_exists.mp hsome
  have hnn : ∀ kv ∈ pm, kv.2 ≠ Val.null := by
    intro kv hkv hn
    have h2 := hall kv hkv
    rw [hn] at h2
    simp [Val.isNull] at h2
  have hkey : ∀ kv ∈ pm, kv.1 = "href" ∨ kv.1 = "icon" ∨ kv.1 = "abbr" := by
    intro kv hkv
    have h2 := hall kv hkv
    simp only [Bool.and_eq_true, Bool.or_eq_true, beq_iff_eq] at h2
    rcases h2.1 with (h3 | h3) | h3
    · exact Or.inl h3
    · exact Or.inr (Or.inl h3)
    · exact Or.inr (Or.inr h3)
  have hvnn : hvv ≠ Val.null := hnn _ (mem_of_getKey hhv)
  show pyMapEq (extractProps pm).getMap pm = true
  rw [pyMapEq, Bool.and_eq_true]
  constructor
  · rw [List.all_eq_true]
    intro kv hkv
    simp only [extractProps, Val.getMap, List.mem_filter, List.mem_cons,
      List.not_mem_nil, or_false] at hkv
    obtain ⟨hmem3, hnnull⟩ := hkv
    rcases hmem3 with rfl | rfl | rfl
    · simp [hhv, Val.beq_refl]
    · cases hic : getKey pm "icon" with
      | none => simp [hic, Val.isNull] at hnnull
      | some wi => simp [hic, Val.beq_refl]
    · cases hab : getKey pm "abbr" with
      | none => simp [hab, Val.isNull] at hnnull
      | some wa => simp [hab, Val.beq_refl]
  · rw [List.all_eq_true]
    intro kv hkv
    have hg : getKey pm kv.1 = some kv.2 := getKey_of_mem_nodup hnd hkv
    rcases hkey kv hkv with h3 | h3 | h3
    · rw [h3] at hg ⊢
      rw [hhv] at hg
      have heq : hvv = kv.2 := Option.some_injective _ hg
      have hL : getKey (extractProps pm).getMap "href" = some hvv := by
        simp [extractProps, Val.getMap, hhv, List.filter,
          isNull_eq_false hvnn, getKey]
      rw [hL]
      show Val.beq kv.2 hvv = true
      rw [← heq]
      exact Val.beq_refl hvv
    · rw [h3] at hg ⊢
      have hwin : kv.2 ≠ Val.null := hnn _ hkv
      have hL : getKey (extractProps pm).getMap "icon" = some kv.2 := by
        simp [extractProps, Val.getMap, hhv, hg, List.filter,
          isNull_eq_false hvnn, isNull_eq_false hwin, getKey]
      rw [hL]
      show Val.beq kv.2 kv.2 = true
      exact Val.beq_refl kv.2
    · rw [h3] at hg ⊢
      have hwan : kv.2 ≠ Val.null := hnn _ hkv
      have hL : getKey (extractProps pm).getMap "abbr" = some kv.2 := by
        cases hic : getKey pm "icon" with
        | none =>
          simp [extractProps, Val.getMap, hhv, hic, hg, List.filter,
            isNull_eq_false hvnn, isNull_eq_false hwan, getKey, Val.isNull]
        | some wi =>
          have hwin : wi ≠ Val.null := hnn _ (mem_of_getKey hic)
          simp [extractProps, Val.getMap, hhv, hic, hg, List.filter,
            isNull_eq_false hvnn, isNull_eq_false hwin,
            isNull_eq_false hwan, getKey]
      rw [hL]
      show Val.beq kv.2 kv.2 = true
      exact Val.beq_refl kv.2

theorem goodProps_isMap {v : Val} (h : goodProps v = true) :
    ∃ pm, v = Val.map pm := by
  cases v with
  | map pm => exact ⟨pm, rfl⟩
  | null => simp [goodProps] at h
  | bool b => simp [goodProps] at h
  | int n => simp [goodProps] at h
  | str s => simp [goodProps] at h
  | list xs => simp [goodProps] at h

theorem pyBmEq_norm (bms : List (String × Val))
    (h : ∀ b ∈ bms, goodProps b.2 = true) :
    pyBmEq (bms.map (fun b => (b.1, normProps b.2))) bms = true := by
  induction bms with
  | nil => rfl
  | cons b rest ih =>
    have h1 : pyPropsEq (normProps b.2) b.2 = true := by
      have hb := h b (List.mem_cons_self _ _)
      obtain ⟨pm, hpm⟩ := goodProps_isMap hb
      rw [hpm, normProps]
      exact pyPropsEq_extract pm (hpm ▸ hb)
    have h2 : ((rest.map (fun b => (b.1, normProps b.2))).zip rest).all
        (fun p => p.1.1 == p.2.1 && pyPropsEq p.1.2 p.2.2) = true := by
      have h3 := ih (fun b hb => h b (List.mem_cons_of_mem _ hb))
      rw [pyBmEq, Bool.and_eq_true] at h3
      exact h3.2
    simp [pyBmEq, h1, h2]

theorem pyDocEq_norm (d : Doc)
    (h : ∀ c ∈ d, ∀ b ∈ c.2, goodProps b.2 = true) :
    pyDocEq (normDoc d) d = true := by
  induction d with
  | nil => rfl
  | cons c rest ih =>
    have h1 : pyBmEq (c.2.map (fun b => (b.1, normProps b.2))) c.2 = true :=
      pyBmEq_norm c.2 (h c (List.mem_cons_self _ _))
    have h2 : ((normDoc rest).zip rest).all
        (fun p => p.1.1 == p.2.1 && pyBmEq p.1.2 p.2.2) = true := by
      have h3 := ih (fun c hc => h c (List.mem_cons_of_mem _ hc))
      rw [pyDocEq, Bool.and_eq_true] at h3
      exact h3.2
    simp only [normDoc, List.map_cons]
    rw [pyDocEq, Bool.and_eq_true]
    constructor
    · simp
    · rw [List.zip_cons_cons, List.all_cons, Bool.and_eq_true]
      constructor
      · simp [h1]
      · simpa [normDoc] using h2

theorem not_mem_keys_of_hasKey_false {α : Type} {m : List (String × α)}
    {k : String} (h : hasKey m k = false) : k ∉ m.map Prod.fst := by
  induction m with
  | nil => simp
  | cons p t ih =>
    simp only [hasKey, Bool.or_eq_false_iff] at h
    rw [List.map_cons, List.mem_cons]
    rintro (h1 | h1)
    · have h2 : p.1 ≠ k := by simpa using h.1
      exact h2 h1.symm
    · exact ih h.2 h1

theorem delKey_sublist {α : Type} (m : List (String × α)) (k : String) :
    List.Sublist (delKey m k) m := by
  induction m with
  | nil => simp [delKey]
  | cons p t ih =>
    rw [delKey]
    by_cases hp : p.1 = k
    · simp only [hp, beq_self_eq_true, if_true]
      exact List.Sublist.cons p ih
    · simp only [hp, beq_iff_eq, if_false]
      exact List.Sublist.cons₂ p ih

theorem delKey_keys_nodup {α : Type} {m : List (String × α)} (k : String)
    (h : (m.map Prod.fst).Nodup) : ((delKey m k).map Prod.fst).Nodup :=
  h.sublist ((delKey_sublist m k).map Prod.fst)

theorem insertIdx_perm_cons {α : Type} (x : α) :
    ∀ (j : Nat) (l : List α), j ≤ l.length →
      List.Perm (l.insertIdx j x) (x :: l) := by
  intro j
  induction j with
  | zero =>
    intro l _
    rw [List.insertIdx_zero]
  | succ j ih =>
    intro l hl
    cases l with
    | nil => simp at hl
    | cons a t =>
      rw [List.insertIdx_succ_cons]
      exact List.Perm.trans (List.Perm.cons a (ih t (by simpa using hl)))
        (List.Perm.swap _ _ _)

theorem odFromPairs_loop (l : List (String × Val)) :
    ∀ acc : List (String × Val), (∀ p ∈ l, hasKey acc p.1 = false) →
      (l.map Prod.fst).Nodup →
      l.foldl (fun acc p => setKey acc p.1 p.2) acc = acc ++ l := by
  induction l with
  | nil =>
    intro acc _ _
    simp
  | cons p t ih =>
    intro acc hdisj hnd
    rw [List.map_cons, List.nodup_cons] at hnd
    rw [List.foldl_cons,
      setKey_of_hasKey_false _ (hdisj p (List.mem_cons_self _ _))]
    rw [ih (acc ++ [(p.1, p.2)])
      (fun q hq => by
        rw [hasKey_append, hdisj q (List.mem_cons_of_mem _ hq)]
        have hq1 : q.1 ∈ t.map Prod.fst := List.mem_map_of_mem _ hq
        have hne : p.1 ≠ q.1 := fun he => hnd.1 (he ▸ hq1)
        simp [hasKey, hne])
      hnd.2]
    simp

theorem odFromPairs_nodup {l : List (String × Val)}
    (h : (l.map Prod.fst).Nodup) : odFromPairs l = l := by
  rw [odFromPairs, odFromPairs_loop l [] (fun p _ => rfl) h]
  rfl

theorem odFromPairs_insertIdx (l : List (String × Val)) (x : String × Val)
    (j : Nat) (hj : j ≤ l.length) (hnd : (l.map Prod.fst).Nodup)
    (hx : hasKey l x.1 = false) :
    odFromPairs (l.insertIdx j x) = l.insertIdx j x := by
  apply odFromPairs_nodup
  have hperm : List.Perm ((l.insertIdx j x).map Prod.fst)
      (x.1 :: l.map Prod.fst) :=
    (insertIdx_perm_cons x j l hj).map Prod.fst
  apply hperm.symm.nodup
  rw [List.nodup_cons]
  exact ⟨not_mem_keys_of_hasKey_false hx, hnd⟩

theorem notFound_ne_invalid (n A : String) :
    ("Bookmark \"" ++ n ++ "\" not found in category \"" ++ A ++ "\"") ≠
      "Invalid position value" := by
  intro h
  have hpre : strStartsWith
      ("Bookmark \"" ++ n ++ "\" not found in category \"" ++ A ++ "\"")
      "B" = true := rfl
  rw [h] at hpre
  exact absurd hpre (by decide)

theorem reorder_core_ne_invalid (d : Doc) (A n B : String) (p : Int) :
    reorder_core d A n B p ≠ .error "Invalid position value" := by
  unfold reorder_core
  cases getKey d A with
  | none =>
    intro h
    dsimp only at h
    rw [Except.error.injEq] at h
    exact notFound_ne_invalid n A h
  | some src =>
    dsimp only
    cases getKey src n with
    | none =>
      intro h
      dsimp only at h
      rw [Except.error.injEq] at h
      exact notFound_ne_invalid n A h
    | some data =>
      intro h
      dsimp only at h
      exact Except.noConfusion h

/-! The claims. -/

/-- C1: for every ordered-form document whose categories are non-empty and
have distinct names, whose bookmark names are distinct per category, and
whose bookmarks carry property mappings with only the keys href/icon/abbr,
a present href and no null values, converting with toExternal and back
with toOrdered returns (without raising) a document Python-equal to the
original: category and bookmark order preserved exactly, property mappings
compared key-order-insensitively as Python `==` compares plain dicts. -/
theorem c1_round_trip (d : Doc) (h : goodDoc d = true) :
    toOrdered (toExternal d) = .ok (normDoc d) ∧
    pyDocEq (normDoc d) d = true := by
  simp only [goodDoc, Bool.and_eq_true, decide_eq_true_eq] at h
  obtain ⟨hnd, hall⟩ := h
  rw [List.all_eq_true] at hall
  have hparts : ∀ c ∈ d, c.2.isEmpty = false ∧ (c.2.map Prod.fst).Nodup ∧
      ∀ b ∈ c.2, goodProps b.2 = true := by
    intro c hc
    have h2 := hall c hc
    simp only [Bool.and_eq_true] at h2
    refine ⟨by simpa using h2.1.1, of_decide_eq_true h2.1.2, ?_⟩
    have h3 := h2.2
    rw [List.all_eq_true] at h3
    exact h3
  refine ⟨?_, pyDocEq_norm d (fun c hc => (hparts c hc).2.2)⟩
  rw [toExternal_eq d]
  have hfilter : d.filter (fun c => !c.2.isEmpty) = d := by
    apply List.filter_eq_self.mpr
    intro c hc
    rw [(hparts c hc).1]
    rfl
  rw [hfilter]
  cases d with
  | nil => rfl
  | cons c rest =>
    have hres := ordCats_mapped (c :: rest) [] (fun cb _ => rfl) hnd
      (fun cb hcb => ⟨(hparts cb hcb).2.1,
        fun b hb => goodProps_isMap ((hparts cb hcb).2.2 b hb)⟩)
    show ordCats [] ((c :: rest).map extCategory) = .ok (normDoc (c :: rest))
    rw [hres]
    rfl

/-- Witness for C1 at a concrete two-category document with icon- and
abbr-carrying bookmarks. -/
theorem c1_round_trip_witness :
    toOrdered (toExternal
      [("Developer", [("Github", Val.map [("icon", Val.str "/icons/github.png"),
          ("href", Val.str "https://github.com/")])]),
       ("Social", [("Linkedin", Val.map [("abbr", Val.str "LI"),
          ("href", Val.str "https://www.linkedin.com/feed/")]),
         ("Facebook", Val.map [("abbr", Val.str "FB"),
          ("href", Val.str "https://www.facebook.com/")])])]) =
      .ok (normDoc
        [("Developer", [("Github", Val.map [("icon", Val.str "/icons/github.png"),
            ("href", Val.str "https://github.com/")])]),
         ("Social", [("Linkedin", Val.map [("abbr", Val.str "LI"),
            ("href", Val.str "https://www.linkedin.com/feed/")]),
           ("Facebook", Val.map [("abbr", Val.str "FB"),
            ("href", Val.str "https://www.facebook.com/")])])]) ∧
    pyDocEq (normDoc
        [("Developer", [("Github", Val.map [("icon", Val.str "/icons/github.png"),
            ("href", Val.str "https://github.com/")])]),
         ("Social", [("Linkedin", Val.map [("abbr", Val.str "LI"),
            ("href", Val.str "https://www.linkedin.com/feed/")]),
           ("Facebook", Val.map [("abbr", Val.str "FB"),
            ("href", Val.str "https://www.facebook.com/")])])])
      [("Developer", [("Github", Val.map [("icon", Val.str "/icons/github.png"),
          ("href", Val.str "https://github.com/")])]),
       ("Social", [("Linkedin", Val.map [("abbr", Val.str "LI"),
          ("href", Val.str "https://www.linkedin.com/feed/")]),
         ("Facebook", Val.map [("abbr", Val.str "FB"),
          ("href", Val.str "https://www.facebook.com/")])])] = true :=
  c1_round_trip
    [("Developer", [("Github", Val.map [("icon", Val.str "/icons/github.png"),
        ("href", Val.str "https://github.com/")])]),
     ("Social", [("Linkedin", Val.map [("abbr", Val.str "LI"),
        ("href", Val.str "https://www.linkedin.com/feed/")]),
       ("Facebook", Val.map [("abbr", Val.str "FB"),
        ("href", Val.str "https://www.facebook.com/")])])] rfl

/-- C2: the bookmarks validator was claimed never to raise, a property
mapping with a non-string href value yielding a returned error.  The code
instead calls `.startswith` on the raw value, so
`[{"Dev": [{"Site": [{"href": 123}]}]}]` raises AttributeError. -/
theorem c2_nonstring_href_raises :
    validate_bookmarks_format
      (Val.list [Val.map [("Dev", Val.list [Val.map [("Site",
        Val.list [Val.map [("href", Val.int 123)]])]])]]) =
      .error "AttributeError" := rfl

/-- C5: toExternal's output is exactly the non-empty categories in stored
order, each with its bookmarks in stored order, and therefore contains no
category with an empty bookmark set. -/
theorem c5_empty_category_elision (d : Doc) :
    toExternal d = Val.list ((d.filter (fun c => !c.2.isEmpty)).map extCategory) ∧
    ∀ x ∈ (toExternal d).getList, ∃ cname bms,
      x = Val.map [(cname, Val.list (bms.map extBookmark))] ∧ bms ≠ [] := by
  refine ⟨toExternal_eq d, ?_⟩
  intro x hx
  rw [toExternal_eq] at hx
  simp only [Val.getList, List.mem_map, List.mem_filter] at hx
  obtain ⟨⟨cname, bms⟩, ⟨_, hne⟩, rfl⟩ := hx
  exact ⟨cname, bms, rfl, by simpa using hne⟩

/-- Witness for C5 at a concrete document with one empty and one non-empty
category. -/
theorem c5_empty_category_elision_witness :
    ∃ cname bms,
      Val.map [("B", Val.list [Val.map [("b", Val.list [Val.null])]])] =
        Val.map [(cname, Val.list (bms.map extBookmark))] ∧ bms ≠ [] :=
  (c5_empty_category_elision [("A", []), ("B", [("b", Val.null)])]).2
    (Val.map [("B", Val.list [Val.map [("b", Val.list [Val.null])]])])
    (List.Mem.head _)

/-- C6 counterexample: a stored null-valued `icon` key is emitted as-is by
toExternal, so the claim that no null-valued keys appear in the output is
false at this document. -/
theorem c6_null_key_emitted :
    toExternal
      [("C", [("B", Val.map [("href", Val.str "https://x"), ("icon", Val.null)])])] =
      Val.list [Val.map [("C", Val.list [Val.map [("B",
        Val.list [Val.map [("href", Val.str "https://x"), ("icon", Val.null)]])]])]] :=
  rfl

/-- C6 (amended): each retained category is emitted with each bookmark's
stored properties value unchanged (`{name: [properties]}`), so a bookmark
lacking a field produces no such key — but no null-filtering happens on
save. -/
theorem c6_props_passthrough (d : Doc) (c : String) (bms : List (String × Val))
    (hmem : (c, bms) ∈ d) (hne : bms ≠ []) :
    Val.map [(c, Val.list (bms.map extBookmark))] ∈ (toExternal d).getList ∧
    ∀ b ∈ bms, extBookmark b = Val.map [(b.1, Val.list [b.2])] := by
  constructor
  · rw [toExternal_eq]
    simp only [Val.getList, List.mem_map]
    refine ⟨(c, bms), ?_, rfl⟩
    rw [List.mem_filter]
    exact ⟨hmem, by simpa using hne⟩
  · intro b _
    rfl

/-- Witness for C6 at a concrete document whose bookmark lacks `icon`. -/
theorem c6_props_passthrough_witness :
    Val.map [("C", Val.list ([("B", Val.map [("href", Val.str "/x")])].map extBookmark))] ∈
      (toExternal [("C", [("B", Val.map [("href", Val.str "/x")])])]).getList ∧
    ∀ b ∈ [("B", Val.map [("href", Val.str "/x")])],
      extBookmark b = Val.map [(b.1, Val.list [b.2])] :=
  c6_props_passthrough [("C", [("B", Val.map [("href", Val.str "/x")])])] "C"
    [("B", Val.map [("href", Val.str "/x")])] (List.Mem.head _) (by simp)

/-- C9: the list branch of toOrdered reads only the first element of a
bookmark's properties sequence — dropping every later property mapping does
not change the conversion — and the validator accepts a bookmark whose
href sits only in a later property mapping, which then loads with href
defaulted to the empty string. -/
theorem c9_first_props_only :
    (∀ (c : String) (conv : Doc) (bname : String) (p0 : Val) (ps : List Val)
        (rest : List (String × Val)),
      ordBPairs c conv ((bname, Val.list (p0 :: ps)) :: rest) =
        ordBPairs c conv ((bname, Val.list [p0]) :: rest)) ∧
    validate_bookmarks_format
      (Val.list [Val.map [("Dev", Val.list [Val.map [("Site",
        Val.list [Val.map [("icon", Val.str "/i.png")],
          Val.map [("href", Val.str "/x")]])]])]]) = .ok none ∧
    toOrdered
      (Val.list [Val.map [("Dev", Val.list [Val.map [("Site",
        Val.list [Val.map [("icon", Val.str "/i.png")],
          Val.map [("href", Val.str "/x")]])]])]]) =
      .ok [("Dev", [("Site",
        Val.map [("href", Val.str ""), ("icon", Val.str "/i.png")])])] := by
  refine ⟨?_, rfl, rfl⟩
  intro c conv bname p0 ps rest
  cases p0 <;> rfl

/-- C3 counterexample: a bookmark value that is a non-empty sequence whose
first element is not a mapping makes the conversion raise AttributeError
instead of skipping, so toOrdered is not total. -/
theorem c3_raises_counterexample :
    toOrdered (Val.list [Val.map [("Cat", Val.list [Val.map [("BM",
      Val.list [Val.str "x"])]])]]) = .error "AttributeError" := rfl

/-- C3 (amended): the list branch silently skips entries of the wrong shape
at the levels the code checks — a category item or bookmark item that is
not a mapping, and a bookmark value that is not a non-empty sequence — and
on every input tree in which each bookmark value that is a non-empty
sequence starts with a mapping (and each mapping-branch category value is
accepted by OrderedDict), the conversion returns a result and never raises.
The unrestricted never-raises claim fails: see the counterexample. -/
theorem c3_lenient_skips_and_total :
    (∀ (conv : Doc) (x : Val) (rest : List Val), x.isMap = false →
      ordCats conv (x :: rest) = ordCats conv rest) ∧
    (∀ (c : String) (conv : Doc) (b : Val) (rest : List Val), b.isMap = false →
      ordBItems c conv (b :: rest) = ordBItems c conv rest) ∧
    (∀ (c : String) (conv : Doc) (bname : String) (plist : Val)
        (rest : List (String × Val)), plist.isNonemptyList = false →
      ordBPairs c conv ((bname, plist) :: rest) = ordBPairs c conv rest) ∧
    (∀ v : Val, convOk v = true → ∃ r, toOrdered v = .ok r) := by
  refine ⟨?_, ?_, ?_, toOrdered_total⟩
  · intro conv x rest h
    cases x <;> first | rfl | simp [Val.isMap] at h
  · intro c conv b rest h
    cases b <;> first | rfl | simp [Val.isMap] at h
  · intro c conv bname plist rest h
    cases plist with
    | null => rfl
    | bool b => rfl
    | int n => rfl
    | str s => rfl
    | map m => rfl
    | list xs =>
      cases xs with
      | nil => rfl
      | cons p0 ps => simp [Val.isNonemptyList] at h

/-- Witness for C3: a skipped non-mapping category item, a skipped
non-mapping bookmark item, a skipped non-sequence bookmark value, a
well-formed list-form document on which the conversion returns ok, and a
mapping-form document whose category values `OrderedDict` accepts (an
empty string gives an empty dict, a sequence of two-element pairs is
consumed pair by pair) on which it also returns ok. -/
theorem c3_lenient_skips_and_total_witness :
    ordCats [] (Val.int 3 :: [Val.map [("A", Val.list [])]]) =
      ordCats [] [Val.map [("A", Val.list [])]] ∧
    ordBItems "A" [] (Val.str "junk" :: []) = ordBItems "A" [] [] ∧
    ordBPairs "A" [] (("b", Val.int 7) :: []) = ordBPairs "A" [] [] ∧
    (∃ r, toOrdered (Val.list [Val.map [("Dev", Val.list [Val.map [("Site",
      Val.list [Val.map [("href", Val.str "/x")]])]])]]) = .ok r) ∧
    (∃ r, toOrdered (Val.map [("Cat", Val.str ""),
      ("Dog", Val.list [Val.list [Val.str "k", Val.str "v"]])]) = .ok r) :=
  ⟨c3_lenient_skips_and_total.1 [] (Val.int 3) [Val.map [("A", Val.list [])]] rfl,
   c3_lenient_skips_and_total.2.1 "A" [] (Val.str "junk") [] rfl,
   c3_lenient_skips_and_total.2.2.1 "A" [] "b" (Val.int 7) [] rfl,
   c3_lenient_skips_and_total.2.2.2 _ rfl,
   c3_lenient_skips_and_total.2.2.2 _ rfl⟩

/-- C4 counterexample: on mapping-form input the bookmark values are copied
as-is — a bookmark without `href` stays without `href` (no empty-string
defaulting as the claim stated). -/
theorem c4_no_defaulting_counterexample :
    toOrdered
      (Val.map [("Cat", Val.map [("BM", Val.map [("icon", Val.str "/i.png")])])]) =
      .ok [("Cat", [("BM", Val.map [("icon", Val.str "/i.png")])])] ∧
    getKey (Val.map [("icon", Val.str "/i.png")]).getMap "href" = none :=
  ⟨rfl, rfl⟩

theorem reorder_core_spec (d : Doc) (A n B : String) (p : Int)
    (bmsA : List (String × Val)) (data : Val)
    (hA : getKey d A = some bmsA) (hn : getKey bmsA n = some data) :
    ∃ d', reorder_core d A n B p = .ok d' ∧
      (∀ c, c ≠ A → c ≠ B → getKey d' c = getKey d c) ∧
      getKey d' B =
        some (odFromPairs
          (placeAt (if B = A then delKey bmsA n else (getKey d B).getD [])
            p (n, data))) ∧
      (B ≠ A →
        getKey d' A =
          if (delKey bmsA n).isEmpty then none else some (delKey bmsA n)) := by
  have hcore := reorder_core_found d A n B p bmsA data hA hn
  set srcRemoved := delKey bmsA n with hsrc
  set b2 := (if srcRemoved.isEmpty then delKey (setKey d A srcRemoved) A
    else setKey d A srcRemoved) with hb2
  set b3 := (if hasKey b2 B then b2 else b2 ++ [(B, [])]) with hb3
  set ti := (getKey b3 B).getD [] with hti
  refine ⟨setKey b3 B (odFromPairs (placeAt ti p (n, data))), hcore.trans rfl, ?_⟩
  have hb2c : ∀ c, c ≠ A → getKey b2 c = getKey d c := by
    intro c hc
    rw [hb2]
    by_cases hemp : srcRemoved.isEmpty
    · rw [if_pos hemp, getKey_delKey_ne _ hc, getKey_setKey_ne _ _ hc]
    · rw [if_neg hemp, getKey_setKey_ne _ _ hc]
  have hb2A : getKey b2 A =
      if srcRemoved.isEmpty then none else some srcRemoved := by
    rw [hb2]
    by_cases hemp : srcRemoved.isEmpty
    · rw [if_pos hemp, if_pos hemp, getKey_delKey_self]
    · rw [if_neg hemp, if_neg hemp, getKey_setKey_self]
  have hb3c : ∀ c, c ≠ B → getKey b3 c = getKey b2 c := by
    intro c hc
    rw [hb3]
    by_cases hk : hasKey b2 B
    · rw [if_pos hk]
    · rw [if_neg hk, getKey_append_single_ne _ _ hc]
  have hb3B : getKey b3 B =
      some (if B = A then srcRemoved else (getKey d B).getD []) := by
    rw [hb3]
    by_cases hBA : B = A
    · rw [if_pos hBA]
      by_cases hemp : srcRemoved.isEmpty
      · have hfalse : hasKey b2 B = false := by
          rw [hb2, if_pos hemp, hBA]
          exact hasKey_delKey_self _ _
        rw [hfalse]
        simp only [Bool.false_eq_true, if_false]
        have hnone : getKey b2 B = none := by
          rw [hb2, if_pos hemp, hBA]
          exact getKey_delKey_self _ _
        rw [getKey_append_right _ hnone, getKey_cons, if_pos rfl]
        have : srcRemoved = [] := by
          simpa using hemp
        rw [this]
      · have hsome : getKey b2 B = some srcRemoved := by
          rw [hb2, if_neg hemp, hBA]
          exact getKey_setKey_self _ _ _
        have htrue : hasKey b2 B = true := by
          rw [hasKey_iff_isSome, hsome]
          rfl
        rw [htrue]
        simp only [if_true]
        exact hsome
    · rw [if_neg hBA]
      have hdB : getKey b2 B = getKey d B := hb2c B hBA
      cases hx : getKey d B with
      | some x =>
        have htrue : hasKey b2 B = true := by
          rw [hasKey_iff_isSome, hdB, hx]
          rfl
        rw [htrue]
        simp only [if_true]
        rw [hdB, hx]
        rfl
      | none =>
        have hfalse : hasKey b2 B = false := by
          rw [← Bool.not_eq_true, hasKey_iff_isSome, hdB, hx]
          simp
        rw [hfalse]
        simp only [Bool.false_eq_true, if_false]
        rw [getKey_append_right _ (hdB.trans hx), getKey_cons, if_pos rfl]
        rfl
  have hbase : ti = if B = A then srcRemoved else (getKey d B).getD [] := by
    rw [hti, hb3B]
    rfl
  refine ⟨?_, ?_, ?_⟩
  · intro c hcA hcB
    rw [getKey_setKey_ne _ _ hcB, hb3c c hcB, hb2c c hcA]
  · rw [getKey_setKey_self, hbase]
  · intro hBA
    have hAB : (A : String) ≠ B := Ne.symm hBA
    rw [getKey_setKey_ne _ _ hAB, hb3c A hAB, hb2A]

/-- C7 (amended): for every well-shaped bookmarks document (href values
strings), validation returns ok exactly when every bookmark both has at
least one property mapping containing key href and has every href value
across its property mappings start with an accepted scheme; the spec's two
error examples return the stated bookmark-naming messages. -/
theorem c7_validator_bookmarks :
    (∀ data : Val, wellShaped data = true →
      (validate_bookmarks_format data = .ok none ↔
        specAllBookmarksOk data = true)) ∧
    validate_bookmarks_format (Val.list [Val.map [("Dev", Val.list [Val.map [("Site",
      Val.list [Val.map [("href", Val.str "/x")]])]])]]) = .ok none ∧
    validate_bookmarks_format (Val.list [Val.map [("Dev", Val.list [Val.map [("Site",
      Val.list [Val.map [("icon", Val.str "/i.png")]])]])]]) =
      .ok (some "Bookmark 'Site' must have an 'href' property") ∧
    validate_bookmarks_format (Val.list [Val.map [("Dev", Val.list [Val.map [("Site",
      Val.list [Val.map [("href", Val.str "ftp://x")]])]])]]) =
      .ok (some "href in 'Site' should be a valid URL") := by
  refine ⟨?_, rfl, rfl, rfl⟩
  intro data hws
  cases data with
  | list cats =>
    simp only [wellShaped] at hws
    constructor
    · intro hok
      cases hall : cats.all specCatEntryOk
      · obtain ⟨e, he⟩ := checkCategories_err cats hws hall
        rw [show validate_bookmarks_format (Val.list cats) =
          checkCategories cats from rfl, he] at hok
        exact absurd hok (by simp)
      · simp [specAllBookmarksOk, hall]
    · intro hspec
      simp only [specAllBookmarksOk] at hspec
      exact checkCategories_ok cats hws hspec
  | null => simp [wellShaped] at hws
  | bool b => simp [wellShaped] at hws
  | int n => simp [wellShaped] at hws
  | str s => simp [wellShaped] at hws
  | map m => simp [wellShaped] at hws

/-- Witness for C7 at the spec's valid example document. -/
theorem c7_validator_bookmarks_witness :
    validate_bookmarks_format (Val.list [Val.map [("Dev", Val.list [Val.map [("Site",
      Val.list [Val.map [("href", Val.str "/x")]])]])]]) = .ok none ↔
    specAllBookmarksOk (Val.list [Val.map [("Dev", Val.list [Val.map [("Site",
      Val.list [Val.map [("href", Val.str "/x")]])]])]]) = true :=
  c7_validator_bookmarks.1 _ rfl

/-- C8 counterexample: when the target category already holds a bookmark
with the moved name, the final `OrderedDict(target_items)` rebuild of
`reorder_bookmark` merges the duplicate (the first occurrence keeps its
position, the moved value wins) instead of inserting a new entry at index
`p` — refuting the claim's unconditional insert-at-`p` description. -/
theorem c8_duplicate_merge_counterexample :
    reorder_core [("A", [("n", Val.str "dA")]),
        ("B", [("n", Val.str "dB"), ("y", Val.str "vy")])] "A" "n" "B" 1 =
      .ok [("B", [("n", Val.str "dA"), ("y", Val.str "vy")])] := rfl

/-- C8 (amended): moving bookmark `n` from category `A` to category `B` at
position `p ≥ 0` succeeds, leaves every other category's value untouched,
removes `n` from `A` (deleting `A` exactly when that removal emptied it),
and — provided bookmark names in `A` are unique and `B` does not already
hold a bookmark named `n` (a distinct target's names also unique), so the
final `OrderedDict` rebuild has nothing to merge — makes `B`'s bookmark
list its previous list (empty when `B` was absent) with `(n, data)`
inserted at index `p`, clamped to appending at the end. -/
theorem c8_reorder_moves_bookmark (d : Doc) (A n B : String) (p : Int)
    (bmsA : List (String × Val)) (data : Val)
    (hA : getKey d A = some bmsA) (hn : getKey bmsA n = some data)
    (hp : 0 ≤ p)
    (hndA : (bmsA.map Prod.fst).Nodup)
    (hBn : B ≠ A → hasKey ((getKey d B).getD []) n = false)
    (hndB : B ≠ A → (((getKey d B).getD []).map Prod.fst).Nodup) :
    ∃ d', reorder_core d A n B p = .ok d' ∧
      (∀ c, c ≠ A → c ≠ B → getKey d' c = getKey d c) ∧
      getKey d' B =
        some ((if B = A then delKey bmsA n else (getKey d B).getD []).insertIdx
          (min p.toNat
            (if B = A then delKey bmsA n else (getKey d B).getD []).length)
          (n, data)) ∧
      (B ≠ A →
        getKey d' A =
          if (delKey bmsA n).isEmpty then none else some (delKey bmsA n)) := by
  obtain ⟨d', hok, hother, hB, hAdel⟩ := reorder_core_spec d A n B p bmsA data hA hn
  rw [placeAt_nonneg _ _ _ hp] at hB
  set base := (if B = A then delKey bmsA n else (getKey d B).getD []) with hbase
  have hbnd : (base.map Prod.fst).Nodup := by
    rw [hbase]
    by_cases hBA : B = A
    · rw [if_pos hBA]
      exact delKey_keys_nodup n hndA
    · rw [if_neg hBA]
      exact hndB hBA
  have hbfresh : hasKey base n = false := by
    rw [hbase]
    by_cases hBA : B = A
    · rw [if_pos hBA]
      exact hasKey_delKey_self bmsA n
    · rw [if_neg hBA]
      exact hBn hBA
  rw [odFromPairs_insertIdx base (n, data) _ (Nat.min_le_right _ _)
    hbnd hbfresh] at hB
  exact ⟨d', hok, hother, hB, hAdel⟩

/-- Witness for C8: moving "n" from category "A" (position 0) to category
"B" at position 1 of a concrete two-category document. -/
theorem c8_reorder_moves_bookmark_witness :
    ∃ d', reorder_core
        [("A", [("n", Val.str "d")]),
         ("B", [("x", Val.str "u"), ("y", Val.str "v")])] "A" "n" "B" 1 = .ok d' ∧
      (∀ c, c ≠ "A" → c ≠ "B" →
        getKey d' c =
          getKey [("A", [("n", Val.str "d")]),
            ("B", [("x", Val.str "u"), ("y", Val.str "v")])] c) ∧
      getKey d' "B" =
        some ((if ("B" : String) = "A" then delKey [("n", Val.str "d")] "n"
            else (getKey [("A", [("n", Val.str "d")]),
              ("B", [("x", Val.str "u"), ("y", Val.str "v")])] "B").getD []).insertIdx
          (min (1 : Int).toNat
            (if ("B" : String) = "A" then delKey [("n", Val.str "d")] "n"
              else (getKey [("A", [("n", Val.str "d")]),
                ("B", [("x", Val.str "u"), ("y", Val.str "v")])] "B").getD []).length)
          ("n", Val.str "d")) ∧
      (("B" : String) ≠ "A" →
        getKey d' "A" =
          if (delKey [("n", Val.str "d")] "n").isEmpty then none
          else some (delKey [("n", Val.str "d")] "n")) :=
  c8_reorder_moves_bookmark
    [("A", [("n", Val.str "d")]), ("B", [("x", Val.str "u"), ("y", Val.str "v")])]
    "A" "n" "B" 1 [("n", Val.str "d")] (Val.str "d") rfl rfl (by norm_num)
    (by simp) (fun _ => rfl) (fun _ => by decide)

/-- C10 counterexample: with a negative position and the moved name
already present in the target category, the final
`OrderedDict(target_items)` rebuild merges the duplicate instead of
performing the claimed `list.insert` from the end — the moved value
replaces the target's existing same-named entry in place. -/
theorem c10_duplicate_merge_counterexample :
    reorder_bookmark [("A", [("n", Val.str "dA")]),
        ("B", [("n", Val.str "dB"), ("y", Val.str "vy")])] "A" "n" "B" "-1" =
      .ok [("B", [("n", Val.str "dA"), ("y", Val.str "vy")])] := rfl

/-- C10 (amended): reorder accepts any integer position string, negative
included — when the moved name is fresh in the target category and names
are unique (the reachable-document case, where the final `OrderedDict`
rebuild has nothing to merge), a negative `p` inserts with Python
`list.insert` semantics at index `length + p` of the target list (clamped
at 0); a position string that parses as an integer never produces the
"Invalid position value" error (`"1_0"` parses as 10 by digit grouping),
while a concrete non-integer string does produce it. -/
theorem c10_negative_position (d : Doc) (A n B s : String) (p : Int)
    (bmsA : List (String × Val)) (data : Val)
    (hs : pyStrToInt s = some p) (hneg : p < 0)
    (hA : A.isEmpty = false) (hn0 : n.isEmpty = false) (hB : B.isEmpty = false)
    (hAd : getKey d A = some bmsA) (hnd : getKey bmsA n = some data)
    (hndA : (bmsA.map Prod.fst).Nodup)
    (hBn : B ≠ A → hasKey ((getKey d B).getD []) n = false)
    (hndB : B ≠ A → (((getKey d B).getD []).map Prod.fst).Nodup) :
    (∃ d', reorder_bookmark d A n B s = .ok d' ∧
      getKey d' B =
        some ((if B = A then delKey bmsA n else (getKey d B).getD []).insertIdx
          (((if B = A then delKey bmsA n else (getKey d B).getD []).length : Int)
            + p).toNat (n, data))) ∧
    (∀ (d2 : Doc) (A2 n2 B2 s2 : String) (p2 : Int), pyStrToInt s2 = some p2 →
      A2.isEmpty = false → n2.isEmpty = false → B2.isEmpty = false →
      reorder_bookmark d2 A2 n2 B2 s2 ≠ .error "Invalid position value") ∧
    pyStrToInt "1_0" = some 10 ∧
    reorder_bookmark [("A", [("n", Val.null)])] "A" "n" "B" "abc" =
      .error "Invalid position value" := by
  refine ⟨?_, ?_, rfl, rfl⟩
  · obtain ⟨d', hok, _, hBl, _⟩ := reorder_core_spec d A n B p bmsA data hAd hnd
    rw [placeAt_neg _ _ _ hneg] at hBl
    set base := (if B = A then delKey bmsA n else (getKey d B).getD []) with hbase
    have hbnd : (base.map Prod.fst).Nodup := by
      rw [hbase]
      by_cases hBA : B = A
      · rw [if_pos hBA]
        exact delKey_keys_nodup n hndA
      · rw [if_neg hBA]
        exact hndB hBA
    have hbfresh : hasKey base n = false := by
      rw [hbase]
      by_cases hBA : B = A
      · rw [if_pos hBA]
        exact hasKey_delKey_self bmsA n
      · rw [if_neg hBA]
        exact hBn hBA
    have hjle : ((base.length : Int) + p).toNat ≤ base.length := by omega
    rw [odFromPairs_insertIdx base (n, data) _ hjle hbnd hbfresh] at hBl
    refine ⟨d', ?_, hBl⟩
    rw [reorder_bookmark_parsed d A n B s p hs hA hn0 hB]
    exact hok
  · intro d2 A2 n2 B2 s2 p2 hs2 h1 h2 h3
    rw [reorder_bookmark_parsed d2 A2 n2 B2 s2 p2 hs2 h1 h2 h3]
    exact reorder_core_ne_invalid d2 A2 n2 B2 p2

/-- Witness for C10: position "-1" moves "n" into the middle of a
two-bookmark category whose names do not include "n". -/
theorem c10_negative_position_witness :
    (∃ d', reorder_bookmark
        [("A", [("n", Val.str "d")]),
         ("B", [("x", Val.str "u"), ("y", Val.str "v")])] "A" "n" "B" "-1" =
        .ok d' ∧
      getKey d' "B" =
        some ((if ("B" : String) = "A" then delKey [("n", Val.str "d")] "n"
            else (getKey [("A", [("n", Val.str "d")]),
              ("B", [("x", Val.str "u"), ("y", Val.str "v")])] "B").getD []).insertIdx
          (((if ("B" : String) = "A" then delKey [("n", Val.str "d")] "n"
              else (getKey [("A", [("n", Val.str "d")]),
                ("B", [("x", Val.str "u"), ("y", Val.str "v")])] "B").getD
                []).length : Int) + (-1)).toNat ("n", Val.str "d"))) ∧
    (∀ (d2 : Doc) (A2 n2 B2 s2 : String) (p2 : Int), pyStrToInt s2 = some p2 →
      A2.isEmpty = false → n2.isEmpty = false → B2.isEmpty = false →
      reorder_bookmark d2 A2 n2 B2 s2 ≠ .error "Invalid position value") ∧
    pyStrToInt "1_0" = some 10 ∧
    reorder_bookmark [("A", [("n", Val.null)])] "A" "n" "B" "abc" =
      .error "Invalid position value" :=
  c10_negative_position
    [("A", [("n", Val.str "d")]), ("B", [("x", Val.str "u"), ("y", Val.str "v")])]
    "A" "n" "B" "-1" (-1) [("n", Val.str "d")] (Val.str "d") rfl (by norm_num)
    rfl rfl rfl rfl rfl (by simp) (fun _ => rfl) (fun _ => by decide)

/-- C4 (amended): on mapping-form input whose category names are distinct
and whose category values are mappings, toOrdered copies every category
value as-is — no href defaulting and no null removal are applied (that
defaulting exists only in the list branch) — and any input that is neither
a sequence nor a mapping yields the empty ordered document. -/
theorem c4_mapping_form_as_is :
    (∀ pairs : List (String × Val), (pairs.map Prod.fst).Nodup →
      pairs.all (fun p => p.2.isMap) = true →
      toOrdered (Val.map pairs) = .ok (pairs.map (fun p => (p.1, p.2.getMap)))) ∧
    (∀ v : Val, v.isList = false → v.isMap = false → toOrdered v = .ok []) := by
  constructor
  · intro pairs hnodup hmaps
    cases pairs with
    | nil => rfl
    | cons p rest =>
      have step : toOrdered (Val.map (p :: rest)) =
          ordMapPairs [] (p :: rest) := rfl
      rw [step, ordMapPairs_maps (p :: rest) [] (by intro q _; rfl) hnodup hmaps]
      simp
  · exact toOrdered_scalar

/-- Witness for C4: a two-category mapping-form document copied as-is, and
a plain string input converted to the empty document. -/
theorem c4_mapping_form_as_is_witness :
    toOrdered (Val.map [("Cat", Val.map [("BM", Val.map [("icon", Val.str "/i.png")])]),
        ("Cat2", Val.map [("BM2", Val.map [("href", Val.null)])])]) =
      .ok ([("Cat", Val.map [("BM", Val.map [("icon", Val.str "/i.png")])]),
        ("Cat2", Val.map [("BM2", Val.map [("href", Val.null)])])].map
          (fun p => (p.1, p.2.getMap))) ∧
    toOrdered (Val.str "junk") = .ok [] :=
  ⟨c4_mapping_form_as_is.1
      [("Cat", Val.map [("BM", Val.map [("icon", Val.str "/i.png")])]),
       ("Cat2", Val.map [("BM2", Val.map [("href", Val.null)])])]
      (by simp) rfl,
   c4_mapping_form_as_is.2 (Val.str "junk") rfl rfl⟩

/-- C7 counterexample: the bookmark "Site" has a property mapping whose
href value "/x" is scheme-valid, yet validation is not ok — the validator
also rejects any other property mapping holding an invalid href, so "ok
exactly when some property mapping has a valid href" is false here. -/
theorem c7_not_ok_despite_valid_href :
    validate_bookmarks_format
      (Val.list [Val.map [("Dev", Val.list [Val.map [("Site",
        Val.list [Val.map [("href", Val.str "ftp://x")],
          Val.map [("href", Val.str "/x")]])]])]]) =
      .ok (some "href in 'Site' should be a valid URL") ∧
    getKey [("href", Val.str "/x")] "href" = some (Val.str "/x") ∧
    hrefValid "/x" = true :=
  ⟨rfl, rfl, rfl⟩

end BookmarkTool
